import Mathlib

/-!
Verification development for the text-editing core of the gpui-component
repository: the rope coordinate-conversion layer (crates/ui/src/input/rope_ext.rs),
the incremental soft-wrap engine (crates/ui/src/input/text_wrapper.rs), the
marker model (crates/ui/src/input/marker.rs) and the cursor coordinate types
(crates/ui/src/input/cursor.rs).

A buffer is shallowly embedded as a list of Unicode scalar values
(Lean Char, which coincides with the Rust char type: scalar values excluding
surrogates).  Byte offsets are UTF-8 byte offsets computed from the list.
The external rope library (ropey, with LineType LF_CR) is modelled by
executable functions whose behaviour on line breaks follows the documented
semantics of ropey and str_indices lines_crlf: a line break is a line feed,
a carriage return, or a carriage-return line-feed pair counted once.  The
model is cross-checked below against the unit tests contained in the
repository sources themselves.
-/

namespace GpuiText
/-- UTF-8 encoded size of a character, as in the Rust char len_utf8 method. -/
def utf8_len (c : Char) : Nat :=
  if c.val < 0x80 then 1
  else if c.val < 0x800 then 2
  else if c.val < 0x10000 then 3
  else 4

/-- UTF-16 encoded size of a character, as in the Rust char len_utf16 method. -/
def utf16_len (c : Char) : Nat :=
  if c.val < 0x10000 then 1 else 2

/-- A text buffer: the sequence of Unicode scalar values. -/
abbrev Txt := List Char

/-- Total UTF-8 byte length of a buffer (Rust Rope len). -/
def byte_len (s : Txt) : Nat := (s.map utf8_len).sum

/-- Total UTF-16 code-unit length of a buffer (ropey len_utf16). -/
def utf16_total (s : Txt) : Nat := (s.map utf16_len).sum

/-- Number of line-feed characters in a buffer. -/
def count_nl (s : Txt) : Nat := s.countP (· = '\n')

/-- A half-open byte range, as the Rust Range of usize. -/
structure RangeN where
  start : Nat
  stop : Nat
deriving DecidableEq, Repr

/-- The prefix of a buffer that fits in the first n bytes (whole characters
only).  For n on a character boundary this is exactly the first n bytes. -/
def byte_take (n : Nat) : Txt → Txt
  | [] => []
  | c :: t =>
    if utf8_len c ≤ n then c :: byte_take (n - utf8_len c) t else []

/-- The suffix of a buffer after the first n bytes (whole characters only;
a character straddling position n is kept). -/
def byte_drop (n : Nat) : Txt → Txt
  | [] => []
  | c :: t =>
    if utf8_len c ≤ n then byte_drop (n - utf8_len c) t else c :: t

/-- The byte slice of a buffer between two byte offsets (Rust Rope slice). -/
def byte_slice (a b : Nat) (s : Txt) : Txt := byte_take (b - a) (byte_drop a s)

/-- Whether a byte offset falls on a UTF-8 character boundary of the buffer
(ropey is_char_boundary).  Offsets past the end are not boundaries. -/
def is_char_boundary (s : Txt) (o : Nat) : Bool :=
  match s with
  | [] => o = 0
  | c :: t =>
    if o = 0 then true
    else if utf8_len c ≤ o then is_char_boundary t (o - utf8_len c)
    else false

/-- Largest character boundary at or below the given offset
(ropey floor_char_boundary); offsets past the end give the total length. -/
def floor_char_boundary (s : Txt) (o : Nat) : Nat :=
  match s with
  | [] => 0
  | c :: t =>
    if utf8_len c ≤ o then utf8_len c + floor_char_boundary t (o - utf8_len c)
    else 0

/-- Smallest character boundary at or above the given offset
(ropey ceil_char_boundary), for offsets at most the total length. -/
def ceil_char_boundary (s : Txt) (o : Nat) : Nat :=
  match s with
  | [] => 0
  | c :: t =>
    if o = 0 then 0
    else if o ≤ utf8_len c then utf8_len c
    else utf8_len c + ceil_char_boundary t (o - utf8_len c)

/-- Prepend a character to the first part of a non-empty partition of a
buffer into lines. -/
def cons_head (c : Char) : List Txt → List Txt
  | [] => [[c]]
  | l :: ls => (c :: l) :: ls

/-- The lines of a buffer under the LF_CR line metric of ropey: each line
includes its terminating break, where a break is a line feed, a lone carriage
return, or a carriage-return line-feed pair counted as one break.  A buffer
always has at least one line; an empty buffer has exactly one empty line. -/
def lines_crlf : Txt → List Txt
  | [] => [[]]
  | '\r' :: '\n' :: t => ['\r', '\n'] :: lines_crlf t
  | '\r' :: t => ['\r'] :: lines_crlf t
  | '\n' :: t => ['\n'] :: lines_crlf t
  | c :: t => cons_head c (lines_crlf t)

/-- The lines of a buffer split at line feeds only, excluding the line feeds
(carriage returns stay inside the lines); a trailing line feed yields a
final empty line.  This LF-only split agrees with the LF_CR row iteration
of the rope (rows below) exactly on buffers free of lone carriage
returns. -/
def split_lf : Txt → List Txt
  | [] => [[]]
  | '\n' :: t => [] :: split_lf t
  | c :: t => cons_head c (split_lf t)

/-- Join a list of lines back with line-feed separators. -/
def join_lf : List Txt → Txt
  | [] => []
  | [l] => l
  | l :: ls => l ++ '\n' :: join_lf ls

/-- UTF-16 code-unit index corresponding to a byte index
(ropey byte_to_utf16_idx); a byte index inside a character rounds down to the
start of that character, indices past the end give the total UTF-16 length. -/
def byte_to_utf16_idx : Txt → Nat → Nat
  | [], _ => 0
  | c :: t, o =>
    if utf8_len c ≤ o then utf16_len c + byte_to_utf16_idx t (o - utf8_len c)
    else 0

/-- Byte index corresponding to a UTF-16 code-unit index
(ropey utf16_to_byte_idx); an index inside a surrogate pair rounds down to
the start of that character, indices past the end give the byte length. -/
def utf16_to_byte_idx : Txt → Nat → Nat
  | [], _ => 0
  | c :: t, x =>
    if utf16_len c ≤ x then utf8_len c + utf16_to_byte_idx t (x - utf16_len c)
    else 0

/-- Whether a UTF-16 offset falls between characters of the buffer (does
not split a surrogate pair) and is within bounds. -/
def is_utf16_boundary : Txt → Nat → Bool
  | [], x => x = 0
  | c :: t, x =>
    if x = 0 then true
    else if utf16_len c ≤ x then is_utf16_boundary t (x - utf16_len c)
    else false

/-- Index, within a line partition, of the line containing a byte offset;
offsets at or past the end belong to the last line
(str_indices lines from_byte_idx semantics). -/
def line_idx_aux : List Txt → Nat → Nat
  | [], _ => 0
  | [_], _ => 0
  | l :: l2 :: ls, o =>
    if o < byte_len l then 0 else 1 + line_idx_aux (l2 :: ls) (o - byte_len l)

/-- Row index (LF_CR metric) of the line containing a byte offset
(ropey byte_to_line_idx).  An offset inside a carriage-return line-feed pair
belongs to the line the pair terminates. -/
def byte_to_line_idx (s : Txt) (o : Nat) : Nat := line_idx_aux (lines_crlf s) o

/-- Byte offset of the start of a row (ropey line_to_byte_idx). -/
def line_to_byte_idx (s : Txt) (row : Nat) : Nat :=
  byte_len (((lines_crlf s).take row).flatten)

/-- Zero-based row and byte column, as the tree_sitter Point used by the
sources. -/
structure Point where
  row : Nat
  column : Nat
deriving DecidableEq, Repr

/-- Zero-based line and character position (crate::input::Position); the
character field counts Unicode scalar values in these sources. -/
structure Position where
  line : Nat
  character : Nat
deriving DecidableEq, Repr

/-- One-based line and column (crates/ui/src/input/cursor.rs LineColumn). -/
structure LineColumn where
  line : Nat
  column : Nat
deriving DecidableEq, Repr

/-- Bias for clipping an offset to a character boundary (sum_tree Bias). -/
inductive Bias where
  | left
  | right
deriving DecidableEq, Repr

/-- RopeExt lines_len: self.len_lines(LineType LF_CR). -/
def lines_len (s : Txt) : Nat := (lines_crlf s).length

/-- RopeExt slice_row: the row content, including a trailing carriage return
when present, excluding the trailing line feed; an out-of-bounds row yields
the empty slice.  The source takes the LF_CR line and, when its last
character is a line feed, drops that final one-byte character. -/
def slice_row (s : Txt) (row : Nat) : Txt :=
  if row ≥ lines_len s then []
  else
    let line := (lines_crlf s).getD row []
    if line.getLast? = some '\n' then line.dropLast else line

/-- RopeExt line_len: byte length of slice_row. -/
def line_len (s : Txt) (row : Nat) : Nat := byte_len (slice_row s row)

/-- RopeExt clip_offset: offsets past the end clip to the length; otherwise
a non-boundary offset moves to the floor boundary for a left bias and to the
ceiling boundary for a right bias. -/
def clip_offset (s : Txt) (offset : Nat) (bias : Bias) : Nat :=
  if offset > byte_len s then byte_len s
  else if is_char_boundary s offset then offset
  else match bias with
    | Bias.left => floor_char_boundary s offset
    | Bias.right => ceil_char_boundary s offset

/-- RopeExt offset_to_point: clip left, then row and byte column. -/
def offset_to_point (s : Txt) (offset : Nat) : Point :=
  let o := clip_offset s offset Bias.left
  let row := byte_to_line_idx s o
  let line_start := line_to_byte_idx s row
  ⟨row, o - line_start⟩

/-- RopeExt point_to_offset: an out-of-range row maps to the end of the
buffer, otherwise the line start plus the byte column. -/
def point_to_offset (s : Txt) (p : Point) : Nat :=
  if p.row ≥ lines_len s then byte_len s
  else line_to_byte_idx s p.row + p.column

/-- RopeExt line_start_offset. -/
def line_start_offset (s : Txt) (row : Nat) : Nat :=
  point_to_offset s ⟨row, 0⟩

/-- RopeExt line_end_offset: start of the row plus its content length (the
source doc speaks of including the line feed, but the implementation adds
line_len, which excludes it). -/
def line_end_offset (s : Txt) (row : Nat) : Nat :=
  if row > lines_len s then byte_len s
  else line_start_offset s row + line_len s row

/-- RopeExt position_to_offset: line start plus the summed UTF-8 lengths of
the first character-count characters of the row content. -/
def position_to_offset (s : Txt) (pos : Position) : Nat :=
  let line := slice_row s pos.line
  line_start_offset s pos.line + byte_len (line.take pos.character)

/-- RopeExt offset_to_position: row from offset_to_point, then the character
count of the row content up to the UTF-16-rounded byte column. -/
def offset_to_position (s : Txt) (offset : Nat) : Position :=
  let p := offset_to_point s offset
  let line := slice_row s p.row
  let o2 := utf16_to_byte_idx line (byte_to_utf16_idx line p.column)
  ⟨p.row, (byte_take o2 line).length⟩

/-- RopeExt offset_utf16_to_offset. -/
def offset_utf16_to_offset (s : Txt) (x : Nat) : Nat :=
  if x > utf16_total s then byte_len s
  else utf16_to_byte_idx s x

/-- RopeExt offset_to_offset_utf16. -/
def offset_to_offset_utf16 (s : Txt) (o : Nat) : Nat :=
  if o > byte_len s then utf16_total s
  else byte_to_utf16_idx s o

/-- RopeExt char_at: None past the end, otherwise the character starting at
the offset (None at the very end). -/
def char_at (s : Txt) (offset : Nat) : Option Char :=
  if offset > byte_len s then none
  else (byte_drop offset s).head?

/-- RopeExt replace: remove the byte range, insert the new text at its
start. -/
def replace (s : Txt) (r : RangeN) (new_text : Txt) : Txt :=
  byte_take r.start s ++ new_text ++ byte_drop r.stop s

/-- The Rust char is_alphanumeric test, modelled for the character ranges
appearing in this development: ASCII digits and letters and the CJK Unified
Ideographs block (which covers the Chinese characters used in the sources
and their tests).  The full Unicode Alphabetic and number categories of the
Rust standard library agree with this model on those ranges. -/
def is_alphanumeric (c : Char) : Bool :=
  (0x30 ≤ c.val && c.val ≤ 0x39) ||
  (0x41 ≤ c.val && c.val ≤ 0x5A) ||
  (0x61 ≤ c.val && c.val ≤ 0x7A) ||
  (0x4E00 ≤ c.val && c.val ≤ 0x9FFF)

/-- The word-character test of word_range: alphanumeric or underscore. -/
def is_word_char (c : Char) : Bool := is_alphanumeric c || c = '_'

/-- Byte length of the maximal word-character run immediately before a
boundary offset (the left expansion loop of word_range). -/
def word_left_len (s : Txt) (o : Nat) : Nat :=
  byte_len ((byte_take o s).reverse.takeWhile is_word_char)

/-- Byte length of the maximal word-character run starting at a boundary
offset (the right expansion of word_range). -/
def word_right_len (s : Txt) (o : Nat) : Nat :=
  byte_len ((byte_drop o s).takeWhile is_word_char)

/-- RopeExt word_range: None at or past the end; otherwise clip left, expand
left and right over word characters, and return None when the expansion is
empty. -/
def word_range (s : Txt) (offset : Nat) : Option RangeN :=
  if offset ≥ byte_len s then none
  else
    let o := clip_offset s offset Bias.left
    let start := o - word_left_len s o
    let stop := o + word_right_len s o
    if start = stop then none else some ⟨start, stop⟩

/-- RopeExt word_at: the slice of the word range, or empty. -/
def word_at (s : Txt) (offset : Nat) : Txt :=
  match word_range s offset with
  | some r => byte_slice r.start r.stop s
  | none => []

/-- One logical line and its soft-wrap segments (LineItem). -/
structure LineItem where
  line : Txt
  wrapped_lines : List RangeN
deriving DecidableEq, Repr

/-- LineItem len: byte length of the stored line. -/
def LineItem.len (it : LineItem) : Nat := byte_len it.line

/-- LineItem lines_len: number of soft wrapped lines. -/
def LineItem.soft_count (it : LineItem) : Nat := it.wrapped_lines.length

/-- The cached longest row (LongestRow); the default value is row zero with
length zero. -/
structure LongestRow where
  row : Nat
  len : Nat
deriving DecidableEq, Repr

/-- The TextWrapper state.  The font fields are represented by the injected
wrap function below; wrap widths and pixel values are carried as opaque
numbers, only handed to that function. -/
structure TextWrapper where
  text : Txt
  soft_lines : Nat
  wrap_width : Option Nat
  longest_row : LongestRow
  lines : List LineItem
deriving DecidableEq, Repr

/-- The injected line-shaping function: from a line (without its line feed)
and a wrap width, the list of wrap boundary byte indices
(the gpui Boundary ix values). -/
abbrev WrapFn := Txt → Nat → List Nat

/-- TextWrapper new. -/
def TextWrapper.new (w : Option Nat) : TextWrapper :=
  { text := [], soft_lines := 0, wrap_width := w,
    longest_row := ⟨0, 0⟩, lines := [] }

/-- The wrap segments produced by the boundary loop: one range from each
previous boundary to the next. -/
def seg_ranges (prev : Nat) : List Nat → List RangeN
  | [] => []
  | b :: bs => ⟨prev, b⟩ :: seg_ranges b bs

/-- The final value of the previous-boundary cursor after the loop. -/
def last_prev (prev : Nat) : List Nat → Nat
  | [] => prev
  | b :: bs => last_prev b bs

/-- The wrapped_lines computed for one line in TextWrapper update: the
boundary segments, followed by the remainder segment when the remainder is
non-empty or no boundary was emitted.  Without a wrap width the boundary
loop is skipped. -/
def make_wrapped_lines (f : WrapFn) (w : Option Nat) (line : Txt) : List RangeN :=
  let bs := match w with
    | none => []
    | some width => f line width
  let prev := last_prev 0 bs
  let segs := seg_ranges 0 bs
  if byte_drop prev line ≠ [] ∨ prev = 0 then segs ++ [⟨prev, byte_len line⟩]
  else segs

/-- The LineItems for the freshly computed region: one per LF line of the
slice. -/
def new_line_items (f : WrapFn) (w : Option Nat) (slice : Txt) : List LineItem :=
  (split_lf slice).map (fun l => ⟨l, make_wrapped_lines f w l⟩)

/-- The running longest-row fold of the update loop, over the freshly
computed lines. -/
def fold_longest (base : Nat) : Nat → LongestRow → List Txt → LongestRow
  | _, acc, [] => acc
  | ix, acc, l :: ls =>
    let acc := if byte_len l > acc.len then LongestRow.mk (base + ix) (byte_len l) else acc
    fold_longest base (ix + 1) acc ls

/-- The Vec splice of the update: replace the inclusive row range a..=b. -/
def splice_lines (v : List LineItem) (a b : Nat) (new_items : List LineItem) :
    List LineItem :=
  v.take a ++ new_items ++ v.drop (b + 1)

/-- TextWrapper update (the private update method taking the injected wrap
function), with the recomputed slice iterated by the LF-only split; this
coincides with the faithful LF_CR row iteration (update_crlf below) on
buffers free of lone carriage returns.  Argument order follows the source:
the post-edit text, the pre-edit byte range, the inserted text. -/
def update (f : WrapFn) (s : TextWrapper) (changed_text : Txt) (range : RangeN)
    (new_text : Txt) : TextWrapper :=
  let start_row := (offset_to_point s.text range.start).row
  let start_row := min start_row (s.lines.length - 1)
  let end_row := (offset_to_point s.text range.stop).row
  let end_row := min end_row (s.lines.length - 1)
  let longest0 :=
    if start_row ≤ s.longest_row.row ∧ s.longest_row.row ≤ end_row then
      LongestRow.mk 0 0
    else s.longest_row
  let new_start_row := (offset_to_point changed_text range.start).row
  let new_start_offset := line_start_offset changed_text new_start_row
  let new_end_row :=
    (offset_to_point changed_text (range.start + byte_len new_text)).row
  let new_end_offset := line_end_offset changed_text new_end_row
  let sl := byte_slice new_start_offset new_end_offset changed_text
  let new_lines := new_line_items f s.wrap_width sl
  let longest1 := fold_longest new_start_row 0 longest0 (split_lf sl)
  let lines2 :=
    if s.lines.length = 0 then new_lines
    else splice_lines s.lines start_row end_row new_lines
  { text := changed_text,
    soft_lines := (lines2.map (fun l => l.wrapped_lines.length)).sum,
    wrap_width := s.wrap_width,
    longest_row := longest1,
    lines := lines2 }

/-- TextWrapper update_all: a full update over the whole new text. -/
def update_all (f : WrapFn) (s : TextWrapper) (text : Txt) : TextWrapper :=
  update f s text ⟨0, byte_len text⟩ text

/-- A shaped wrapped line of a LineLayout: its text, rendered width and the
x-position query of the shaping backend (both opaque to the logic verified
here; pixel quantities are carried as integers). -/
structure ShapedLine where
  text : Txt
  width : Int
  x_for : Nat → Int

/-- The gpui ShapedLine len: byte length of its text. -/
def ShapedLine.len (l : ShapedLine) : Nat := byte_len l.text

/-- The LineLayout of one logical line. -/
structure LineLayout where
  len : Nat
  wrapped_lines : List ShapedLine
  longest_width : Int

/-- LineLayout new. -/
def LineLayout.empty : LineLayout := ⟨0, [], 0⟩

/-- LineLayout set_wrapped_lines. -/
def set_wrapped_lines (ws : List ShapedLine) : LineLayout :=
  { len := (ws.map ShapedLine.len).sum,
    longest_width := (ws.map (fun l => l.width)).foldr max 0,
    wrapped_lines := ws }

/-- The accumulator loop of position_for_index: per wrapped line, an
inclusive range check against the accumulated length, else advance the
accumulated length and the vertical offset. -/
def pfi_aux (offset : Nat) (line_height : Int) :
    Nat → Int → List ShapedLine → Option (Int × Int)
  | _, _, [] => none
  | acc, y, l :: ls =>
    if acc ≤ offset ∧ offset ≤ acc + l.len then some (l.x_for (offset - acc), y)
    else pfi_aux offset line_height (acc + byte_len l.text) (y + line_height) ls

/-- LineLayout position_for_index. -/
def position_for_index (ll : LineLayout) (offset : Nat) (line_height : Int) :
    Option (Int × Int) :=
  pfi_aux offset line_height 0 0 ll.wrapped_lines

/-- The From conversion of a one-based LineColumn to a zero-based Point
(crates/ui/src/input/cursor.rs), with saturating subtraction. -/
def point_of_line_column (lc : LineColumn) : Point :=
  ⟨lc.line - 1, lc.column - 1⟩

/-- Modelled from the spec: the RopeExt line_column_to_offset method called
by Marker prepare is not among the provided sources; per the spec, prepare
resolves the one-based LineColumn coordinates to byte offsets against the
buffer, which the sources at hand support through the LineColumn to Point
conversion of cursor.rs composed with point_to_offset of rope_ext.rs. -/
def line_column_to_offset (s : Txt) (lc : LineColumn) : Nat :=
  point_to_offset s (point_of_line_column lc)

/-- Marker prepare: resolve both endpoints to a byte range. -/
def marker_prepare (s : Txt) (start stop : LineColumn) : RangeN :=
  ⟨line_column_to_offset s start, line_column_to_offset s stop⟩
/-! ## Demonstration buffers from the repository tests, and spec-side
counting functions. -/

/-- The clip test buffer of rope_ext.rs: the four-byte party-popper emoji
starts at byte 12. -/
def demo_clip : Txt := "Hello 中文🎉 test\nRope".toList

/-- The word test buffer of rope_ext.rs. -/
def demo_words : Txt := "Hello\nWorld\r\nThis is a test 中文 世界\nRope".toList

/-- Whether every carriage return in the buffer is immediately followed by
a line feed. -/
def no_lone_cr : Txt → Bool
  | [] => true
  | '\r' :: '\n' :: t => no_lone_cr t
  | '\r' :: _ => false
  | _ :: t => no_lone_cr t

/-- The number of LF_CR line breaks of a buffer: line feeds, lone carriage
returns, and carriage-return line-feed pairs counted once. -/
def crlf_break_count : Txt → Nat
  | [] => 0
  | '\r' :: '\n' :: t => 1 + crlf_break_count t
  | '\r' :: t => 1 + crlf_break_count t
  | '\n' :: t => 1 + crlf_break_count t
  | _ :: t => crlf_break_count t

/-- The line count stated by the spec sentence of claim C6: the number of
maximal runs not containing a line feed. -/
def lf_line_count (s : Txt) : Nat := (split_lf s).length
/-- The trivial shaping function used by the wrapper test of the sources:
no wrap boundaries for any line. -/
def demo_wrap : WrapFn := fun _ _ => []

/-- The marker scenario buffer of the spec. -/
def demo_marker : Txt := "line1\nworld\n".toList
/-- The UTF-16 conversion test buffer of rope_ext.rs. -/
def demo_utf : Txt := "hello 中文🎉 test\nRope".toList
/-! ## The shaping-function contract and wrapper invariants (for C2). -/

/-- The sanity contract of the injected shaping function, satisfied by the
gpui line wrapper: wrap boundaries are strictly increasing byte indices
strictly inside the line (positive and at most the line length). -/
def sane_wrap (f : WrapFn) : Prop :=
  ∀ (l : Txt) (w : Nat),
    List.Pairwise (· < ·) (f l w) ∧ ∀ b ∈ f l w, 0 < b ∧ b ≤ byte_len l

/-- The chain of contiguous ranges from a start value to an end value:
each range begins where the previous one stopped. -/
def chain_from (a : Nat) : List RangeN → Nat → Prop
  | [], n => a = n
  | r :: rs, n => r.start = a ∧ r.start ≤ r.stop ∧ chain_from r.stop rs n

/-- The partition property of a wrapped-lines list over a line of n bytes:
non-empty, contiguous, non-overlapping, covering exactly 0..n. -/
def partition_ok (rs : List RangeN) (n : Nat) : Prop :=
  rs ≠ [] ∧ chain_from 0 rs n

/-- A TextWrapper update call whose arguments describe a real edit of the
current text: the pre-edit range designates the replaced bytes and the
changed text is the result of the replacement. -/
def valid_step (s : TextWrapper) (changed : Txt) (range : RangeN)
    (new_text : Txt) : Prop :=
  ∃ A M B, s.text = A ++ M ++ B ∧ changed = A ++ new_text ++ B
    ∧ range.start = byte_len A
    ∧ (range.stop = byte_len A + byte_len M ∨ s.lines = [])

/-- Wrapper states reachable by update calls with sane shaping functions
(the arguments are otherwise unconstrained). -/
inductive ReachSane : TextWrapper → Prop
  | init (w : Option Nat) : ReachSane (TextWrapper.new w)
  | step (s : TextWrapper) (f : WrapFn) (changed : Txt) (range : RangeN)
      (new_text : Txt) : ReachSane s → sane_wrap f →
      ReachSane (update f s changed range new_text)

/-- Wrapper states reachable by valid update calls with sane shaping
functions whose buffers never contain a lone carriage return. -/
inductive ReachClean : TextWrapper → Prop
  | init (w : Option Nat) : ReachClean (TextWrapper.new w)
  | step (s : TextWrapper) (f : WrapFn) (changed : Txt) (range : RangeN)
      (new_text : Txt) : ReachClean s → sane_wrap f →
      valid_step s changed range new_text → no_lone_cr changed = true →
      ReachClean (update f s changed range new_text)
/-- Every character of the buffer is accounted between one and four bytes. -/
theorem utf8_len_pos (c : Char) : 0 < utf8_len c := by
  unfold utf8_len; split <;> try split <;> try split
  all_goals simp

theorem cons_head_ne_nil (c : Char) (ls : List Txt) : cons_head c ls ≠ [] := by
  cases ls <;> simp [cons_head]

/-- lines_crlf never returns an empty list of lines. -/
theorem lines_crlf_ne_nil (s : Txt) : lines_crlf s ≠ [] := by
  induction s using lines_crlf.induct <;>
    simp [lines_crlf, cons_head_ne_nil]

/-- split_lf never returns an empty list of lines. -/
theorem split_lf_ne_nil (s : Txt) : split_lf s ≠ [] := by
  induction s using split_lf.induct <;>
    simp [split_lf, cons_head_ne_nil]

theorem cons_head_flatten (c : Char) (ls : List Txt) (h : ls ≠ []) :
    (cons_head c ls).flatten = c :: ls.flatten := by
  cases ls <;> simp_all [cons_head]

/-- Joining the LF_CR lines restores the buffer. -/
theorem lines_crlf_join (s : Txt) : (lines_crlf s).flatten = s := by
  induction s using lines_crlf.induct <;>
    simp_all [lines_crlf, cons_head_flatten _ _ (lines_crlf_ne_nil _)]

theorem join_lf_cons_head (c : Char) (ls : List Txt) (h : ls ≠ []) :
    join_lf (cons_head c ls) = c :: join_lf ls := by
  match ls with
  | [] => exact absurd rfl h
  | [l] => simp [cons_head, join_lf]
  | l :: l2 :: ls => simp [cons_head, join_lf]

theorem join_lf_cons_cons (l l2 : Txt) (ls : List Txt) :
    join_lf (l :: l2 :: ls) = l ++ '\n' :: join_lf (l2 :: ls) := by
  simp [join_lf]

/-- Joining the LF lines with line feeds restores the buffer. -/
theorem split_lf_join (s : Txt) : join_lf (split_lf s) = s := by
  induction s using split_lf.induct with
  | case1 => simp [split_lf, join_lf]
  | case2 t ih =>
    cases h : split_lf t with
    | nil => exact absurd h (split_lf_ne_nil t)
    | cons l ls =>
      rw [h] at ih
      simp [split_lf, h, join_lf_cons_cons, ih]
  | case3 c t hc ih =>
    rw [split_lf, join_lf_cons_head c _ (split_lf_ne_nil t), ih]
    exact hc

theorem byte_len_nil : byte_len [] = 0 := rfl

theorem byte_len_cons (c : Char) (t : Txt) :
    byte_len (c :: t) = utf8_len c + byte_len t := by
  simp [byte_len]

theorem byte_len_append (a b : Txt) :
    byte_len (a ++ b) = byte_len a + byte_len b := by
  simp [byte_len]

theorem byte_take_append_drop (n : Nat) (s : Txt) :
    byte_take n s ++ byte_drop n s = s := by
  induction s generalizing n with
  | nil => simp [byte_take, byte_drop]
  | cons c t ih =>
    by_cases h : utf8_len c ≤ n <;> simp [byte_take, byte_drop, h, ih]

theorem byte_len_take_le (n : Nat) (s : Txt) :
    byte_len (byte_take n s) ≤ n := by
  induction s generalizing n with
  | nil => simp [byte_take, byte_len]
  | cons c t ih =>
    by_cases h : utf8_len c ≤ n
    · simp only [byte_take, if_pos h, byte_len_cons]
      have := ih (n - utf8_len c)
      omega
    · simp [byte_take, h, byte_len]

theorem byte_take_len_mono (s : Txt) (m n : Nat) (h : m ≤ n) :
    byte_len (byte_take m s) ≤ byte_len (byte_take n s) := by
  induction s generalizing m n with
  | nil => simp [byte_take]
  | cons c t ih =>
    by_cases hm : utf8_len c ≤ m
    · have hn : utf8_len c ≤ n := le_trans hm h
      simp only [byte_take, if_pos hm, if_pos hn, byte_len_cons]
      have := ih (m - utf8_len c) (n - utf8_len c) (by omega)
      omega
    · simp [byte_take, hm, byte_len]

theorem is_char_boundary_iff (s : Txt) (o : Nat) :
    is_char_boundary s o = true ↔ byte_len (byte_take o s) = o := by
  induction s generalizing o with
  | nil =>
    simp [is_char_boundary, byte_take, byte_len]
    exact comm
  | cons c t ih =>
    by_cases h0 : o = 0
    · subst h0
      have : ¬ utf8_len c ≤ 0 := by have := utf8_len_pos c; omega
      simp [is_char_boundary, byte_take, this, byte_len]
    · by_cases h : utf8_len c ≤ o
      · simp only [is_char_boundary, if_neg h0, if_pos h, byte_take, byte_len_cons]
        rw [ih]
        constructor
        · intro he; omega
        · intro he; omega
      · simp [is_char_boundary, h0, h, byte_take, byte_len]
        omega

theorem boundary_zero (s : Txt) : is_char_boundary s 0 = true := by
  cases s <;> simp [is_char_boundary]

theorem boundary_le (s : Txt) (o : Nat) (h : is_char_boundary s o = true) :
    o ≤ byte_len s := by
  rw [is_char_boundary_iff] at h
  calc o = byte_len (byte_take o s) := h.symm
    _ ≤ byte_len s := by
        conv_rhs => rw [← byte_take_append_drop o s]
        rw [byte_len_append]; omega

theorem boundary_of_prefix (p q : Txt) :
    is_char_boundary (p ++ q) (byte_len p) = true := by
  induction p with
  | nil => simpa [byte_len] using boundary_zero q
  | cons c t ih =>
    have hu := utf8_len_pos c
    simp only [List.cons_append, is_char_boundary, byte_len_cons]
    rw [if_neg (by omega), if_pos (by omega)]
    simpa using ih

theorem boundary_byte_take (s : Txt) (n : Nat) :
    is_char_boundary s (byte_len (byte_take n s)) = true := by
  have h := boundary_of_prefix (byte_take n s) (byte_drop n s)
  rwa [byte_take_append_drop] at h

theorem boundary_byte_len (s : Txt) : is_char_boundary s (byte_len s) = true := by
  have := boundary_of_prefix s []
  simpa using this

theorem floor_eq_take (s : Txt) (o : Nat) :
    floor_char_boundary s o = byte_len (byte_take o s) := by
  induction s generalizing o with
  | nil => simp [floor_char_boundary, byte_take, byte_len]
  | cons c t ih =>
    by_cases h : utf8_len c ≤ o <;>
      simp [floor_char_boundary, byte_take, h, byte_len_cons, ih, byte_len_nil]

theorem floor_is_boundary (s : Txt) (o : Nat) :
    is_char_boundary s (floor_char_boundary s o) = true := by
  rw [floor_eq_take]; exact boundary_byte_take s o

theorem floor_le (s : Txt) (o : Nat) : floor_char_boundary s o ≤ o := by
  rw [floor_eq_take]; exact byte_len_take_le o s

theorem floor_greatest (s : Txt) (o b : Nat) (hb : is_char_boundary s b = true)
    (hbo : b ≤ o) : b ≤ floor_char_boundary s o := by
  rw [floor_eq_take]
  rw [is_char_boundary_iff] at hb
  calc b = byte_len (byte_take b s) := hb.symm
    _ ≤ byte_len (byte_take o s) := byte_take_len_mono s b o hbo

theorem ceil_is_boundary (s : Txt) (o : Nat) (h : o ≤ byte_len s) :
    is_char_boundary s (ceil_char_boundary s o) = true := by
  induction s generalizing o with
  | nil => simp [ceil_char_boundary, boundary_zero]
  | cons c t ih =>
    by_cases h0 : o = 0
    · simp [ceil_char_boundary, h0, boundary_zero]
    · by_cases hc : o ≤ utf8_len c
      · simp only [ceil_char_boundary, if_neg h0, if_pos hc]
        have : is_char_boundary (c :: t) (utf8_len c + 0) = true := by
          have := boundary_of_prefix [c] t
          simpa [byte_len] using this
        simpa using this
      · have hu := utf8_len_pos c
        simp only [ceil_char_boundary, if_neg h0, if_neg hc, is_char_boundary]
        rw [if_neg (by omega), if_pos (by omega)]
        have harg : o - utf8_len c ≤ byte_len t := by
          rw [byte_len_cons] at h; omega
        simpa using ih (o - utf8_len c) harg

theorem ceil_ge (s : Txt) (o : Nat) (h : o ≤ byte_len s) :
    o ≤ ceil_char_boundary s o := by
  induction s generalizing o with
  | nil => simp [byte_len] at h; simp [ceil_char_boundary, h]
  | cons c t ih =>
    by_cases h0 : o = 0
    · simp [ceil_char_boundary, h0]
    · by_cases hc : o ≤ utf8_len c
      · simp only [ceil_char_boundary, if_neg h0, if_pos hc]; exact hc
      · simp only [ceil_char_boundary, if_neg h0, if_neg hc]
        have harg : o - utf8_len c ≤ byte_len t := by
          rw [byte_len_cons] at h; omega
        have := ih (o - utf8_len c) harg
        omega

theorem ceil_least (s : Txt) (o b : Nat) (hb : is_char_boundary s b = true)
    (hob : o ≤ b) : ceil_char_boundary s o ≤ b := by
  induction s generalizing o b with
  | nil => simp [ceil_char_boundary]
  | cons c t ih =>
    by_cases h0 : o = 0
    · simp [ceil_char_boundary, h0]
    · have hb0 : b ≠ 0 := by omega
      have hu := utf8_len_pos c
      simp only [is_char_boundary, if_neg hb0] at hb
      by_cases hcb : utf8_len c ≤ b
      · rw [if_pos hcb] at hb
        by_cases hc : o ≤ utf8_len c
        · simp only [ceil_char_boundary, if_neg h0, if_pos hc]; exact hcb
        · simp only [ceil_char_boundary, if_neg h0, if_neg hc]
          have := ih (o - utf8_len c) (b - utf8_len c) hb (by omega)
          omega
      · rw [if_neg hcb] at hb
        exact absurd hb (by simp)
theorem cons_head_length (c : Char) (ls : List Txt) (h : ls ≠ []) :
    (cons_head c ls).length = ls.length := by
  cases ls <;> simp_all [cons_head]

theorem lines_len_eq_breaks (s : Txt) :
    lines_len s = crlf_break_count s + 1 := by
  unfold lines_len
  induction s using lines_crlf.induct <;>
    simp_all [lines_crlf, crlf_break_count,
      cons_head_length _ _ (lines_crlf_ne_nil _)] <;> omega

theorem lf_line_count_eq (s : Txt) : lf_line_count s = count_nl s + 1 := by
  unfold lf_line_count
  induction s using split_lf.induct <;>
    simp_all [split_lf, count_nl, cons_head_length _ _ (split_lf_ne_nil _)]

theorem count_nl_cons (c : Char) (t : Txt) :
    count_nl (c :: t) = (if c = '\n' then 1 else 0) + count_nl t := by
  by_cases hn : c = '\n'
  · simp [count_nl, List.countP_cons, hn]
    omega
  · simp [count_nl, List.countP_cons, hn]

theorem clean_breaks_eq_nl (s : Txt) (h : no_lone_cr s = true) :
    crlf_break_count s = count_nl s := by
  induction s using no_lone_cr.induct with
  | case1 => rfl
  | case2 t ih =>
    simp_all [no_lone_cr, crlf_break_count, count_nl_cons]
  | case3 t hne => simp_all [no_lone_cr]
  | case4 c t hc ih =>
    by_cases hn : c = '\n'
    · subst hn
      simp_all [no_lone_cr, crlf_break_count, count_nl_cons]
    · simp_all [no_lone_cr, crlf_break_count, count_nl_cons]

/-- C6 (amended): the line count is the number of line breaks plus one,
where a break is a line feed, a lone carriage return, or a carriage-return
line-feed pair counted once; for buffers in which every carriage return is
part of such a pair this is the line-feed count plus one, so an empty buffer
has one line and a buffer ending in a line feed has one more line than its
line-feed count; in particular the buffer of two letters separated and
terminated by line feeds has three lines. -/
theorem claim_C6 :
    (∀ s : Txt, lines_len s = crlf_break_count s + 1)
  ∧ (∀ s : Txt, no_lone_cr s = true → lines_len s = count_nl s + 1)
  ∧ lines_len [] = 1
  ∧ lines_len ("a\nb\n".toList) = 3 := by
  refine ⟨lines_len_eq_breaks, ?_, by decide, by decide⟩
  intro s h
  rw [lines_len_eq_breaks, clean_breaks_eq_nl s h]

/-- C6 witness: the conditional clause of the amended claim at a concrete
buffer. -/
theorem claim_C6_witness :
    no_lone_cr ("a\nb\n".toList) = true
  ∧ lines_len ("a\nb\n".toList) = count_nl ("a\nb\n".toList) + 1 :=
  ⟨by decide, claim_C6.2.1 ("a\nb\n".toList) (by decide)⟩

/-- C6 counterexample: for the buffer of a letter, a lone carriage return
and a letter, the code counts two lines while the number of maximal runs
without a line feed, as the claim defines a line, is one. -/
theorem claim_C6_counterexample :
    lines_len ("a\rb".toList) = 2 ∧ lf_line_count ("a\rb".toList) = 1 := by
  decide

/-- C4: clip_offset is total and fails closed: an offset past the end clips
to the length for either bias, a boundary offset is returned unchanged, and
an in-range non-boundary offset moves to the greatest boundary below it
under a left bias and to the least boundary above it under a right bias; in
particular, in the demonstration buffer whose four-byte emoji occupies
bytes 12 to 16, offset 13 clips to 12 leftward and 16 rightward. -/
theorem claim_C4 :
    (∀ (s : Txt) (o : Nat) (bias : Bias), byte_len s < o →
        clip_offset s o bias = byte_len s)
  ∧ (∀ (s : Txt) (o : Nat) (bias : Bias), is_char_boundary s o = true →
        clip_offset s o bias = o)
  ∧ (∀ (s : Txt) (o : Nat), o ≤ byte_len s → is_char_boundary s o = false →
        (is_char_boundary s (clip_offset s o Bias.left) = true
          ∧ clip_offset s o Bias.left ≤ o
          ∧ (∀ b, is_char_boundary s b = true → b ≤ o →
              b ≤ clip_offset s o Bias.left))
      ∧ (is_char_boundary s (clip_offset s o Bias.right) = true
          ∧ o ≤ clip_offset s o Bias.right
          ∧ (∀ b, is_char_boundary s b = true → o ≤ b →
              clip_offset s o Bias.right ≤ b)))
  ∧ clip_offset demo_clip 13 Bias.left = 12
  ∧ clip_offset demo_clip 13 Bias.right = 16
  ∧ byte_slice 12 16 demo_clip = "🎉".toList := by
  refine ⟨?_, ?_, ?_, by decide, by decide, by decide⟩
  · intro s o bias h
    simp [clip_offset, h]
  · intro s o bias h
    have hle : o ≤ byte_len s := boundary_le s o h
    simp [clip_offset, h, Nat.not_lt.mpr hle]
  · intro s o hle hnb
    have hnlt : ¬ byte_len s < o := Nat.not_lt.mpr hle
    constructor
    · simp only [clip_offset, if_neg hnlt, hnb, Bool.false_eq_true, if_false]
      exact ⟨floor_is_boundary s o, floor_le s o, fun b hb hbo =>
        floor_greatest s o b hb hbo⟩
    · simp only [clip_offset, if_neg hnlt, hnb, Bool.false_eq_true, if_false]
      exact ⟨ceil_is_boundary s o hle, ceil_ge s o hle, fun b hb hob =>
        ceil_least s o b hb hob⟩

/-- C4 witness: the clip behaviour at concrete offsets of the demonstration
buffer, obtained from the clauses of the theorem. -/
theorem claim_C4_witness :
    clip_offset demo_clip 100 Bias.left = byte_len demo_clip
  ∧ clip_offset demo_clip 5 Bias.right = 5
  ∧ is_char_boundary demo_clip (clip_offset demo_clip 13 Bias.left) = true :=
  ⟨claim_C4.1 demo_clip 100 Bias.left (by decide),
   claim_C4.2.1 demo_clip 5 Bias.right (by decide),
   (claim_C4.2.2.1 demo_clip 13 (by decide) (by decide)).1.1⟩
theorem byte_len_reverse (s : Txt) : byte_len s.reverse = byte_len s := by
  simp [byte_len, List.sum_reverse]

theorem byte_len_prefix_le (p q : Txt) (h : p <+: q) :
    byte_len p ≤ byte_len q := by
  obtain ⟨r, rfl⟩ := h
  rw [byte_len_append]
  omega

theorem word_left_len_le (s : Txt) (o : Nat) : word_left_len s o ≤ o := by
  unfold word_left_len
  calc byte_len ((byte_take o s).reverse.takeWhile is_word_char)
      ≤ byte_len (byte_take o s).reverse :=
        byte_len_prefix_le _ _ (List.takeWhile_prefix _)
    _ = byte_len (byte_take o s) := byte_len_reverse _
    _ ≤ o := byte_len_take_le o s

/-- C5 (amended): for offsets strictly inside the buffer, word_range first
clips the offset with a left bias, then expands left and right over
alphanumeric-or-underscore characters and returns the expanded range, with
None exactly when both expansions are empty; offsets at or past the end of
the buffer always give None (even when word characters end the buffer).  In
the test buffer, offset 31 gives the range of the two CJK characters and
offset 12, between the carriage return and the line feed, gives None. -/
theorem claim_C5 :
    (∀ (s : Txt) (offset : Nat), offset < byte_len s →
        word_range s offset =
          (if word_left_len s (clip_offset s offset Bias.left)
              + word_right_len s (clip_offset s offset Bias.left) = 0 then none
           else some ⟨clip_offset s offset Bias.left
                        - word_left_len s (clip_offset s offset Bias.left),
                      clip_offset s offset Bias.left
                        + word_right_len s (clip_offset s offset Bias.left)⟩))
  ∧ (∀ (s : Txt) (offset : Nat), byte_len s ≤ offset → word_range s offset = none)
  ∧ word_range demo_words 31 = some ⟨28, 34⟩
  ∧ word_at demo_words 31 = "中文".toList
  ∧ word_range demo_words 12 = none
  ∧ word_at demo_words 12 = [] := by
  refine ⟨?_, ?_, by decide, by decide, by decide, by decide⟩
  · intro s offset h
    unfold word_range
    rw [if_neg (by omega)]
    have hL := word_left_len_le s (clip_offset s offset Bias.left)
    have hiff : (clip_offset s offset Bias.left
          - word_left_len s (clip_offset s offset Bias.left)
        = clip_offset s offset Bias.left
          + word_right_len s (clip_offset s offset Bias.left))
        ↔ (word_left_len s (clip_offset s offset Bias.left)
          + word_right_len s (clip_offset s offset Bias.left) = 0) := by
      omega
    by_cases hz : word_left_len s (clip_offset s offset Bias.left)
        + word_right_len s (clip_offset s offset Bias.left) = 0
    · rw [if_pos (hiff.mpr hz), if_pos hz]
    · rw [if_neg (fun he => hz (hiff.mp he)), if_neg hz]
  · intro s offset h
    unfold word_range
    rw [if_pos (by omega)]

/-- C5 witness: both clauses of the amended claim at concrete inputs. -/
theorem claim_C5_witness :
    word_range demo_words 0 =
      (if word_left_len demo_words (clip_offset demo_words 0 Bias.left)
          + word_right_len demo_words (clip_offset demo_words 0 Bias.left) = 0
       then none
       else some ⟨clip_offset demo_words 0 Bias.left
                    - word_left_len demo_words (clip_offset demo_words 0 Bias.left),
                  clip_offset demo_words 0 Bias.left
                    + word_right_len demo_words (clip_offset demo_words 0 Bias.left)⟩)
  ∧ word_range demo_words 100 = none :=
  ⟨claim_C5.1 demo_words 0 (by decide), claim_C5.2.1 demo_words 100 (by decide)⟩

/-- C5 counterexample: at the end of the one-letter buffer the left
expansion is non-empty, so the claim as stated requires a Some range, but
the code returns None because of its offset guard. -/
theorem claim_C5_counterexample :
    word_range ("a".toList) 1 = none
  ∧ word_left_len ("a".toList) (clip_offset ("a".toList) 1 Bias.left) ≠ 0 := by
  decide

/-- C8 (amended, marker resolution modelled from the spec): against the
buffer line1-LF-world-LF, a marker from one-based LineColumn (1,1) to (1,5)
resolves to the byte range 0 to 4, the first four bytes of the first line
(one-based line 1 is the first line). -/
theorem claim_C8 :
    marker_prepare demo_marker ⟨1, 1⟩ ⟨1, 5⟩ = ⟨0, 4⟩
  ∧ byte_slice 0 4 demo_marker = "line".toList := by
  decide

/-- C8 counterexample: the resolved range is not 6 to 10 as the claim
states; bytes 6 to 10 are in the second line, which one-based coordinates
address as line 2. -/
theorem claim_C8_counterexample :
    marker_prepare demo_marker ⟨1, 1⟩ ⟨1, 5⟩ ≠ ⟨6, 10⟩ := by
  decide

/-- C7 (code bug evaluation): over the buffer of a four-letter row and a
two-letter row, the longest row is tracked as row 0 with length 4; an edit
replacing row 0 by one letter has changed row range 0..=0, which contains
the tracked longest row, so the cache is reset, and the update then leaves
the longest row as row 0 with length 1 although the surviving untouched
row 1 has byte length 2: the recomputation scans only the newly computed
lines, never the surviving ones. -/
theorem claim_C7 :
    (update_all demo_wrap (TextWrapper.new none) ("aaaa\nbb".toList)).longest_row
      = ⟨0, 4⟩
  ∧ (update demo_wrap (update_all demo_wrap (TextWrapper.new none) ("aaaa\nbb".toList))
        ("c\nbb".toList) ⟨0, 4⟩ ("c".toList)).longest_row = ⟨0, 1⟩
  ∧ (update demo_wrap (update_all demo_wrap (TextWrapper.new none) ("aaaa\nbb".toList))
        ("c\nbb".toList) ⟨0, 4⟩ ("c".toList)).lines.map LineItem.len = [1, 2] := by
  refine ⟨by decide, by decide, by decide⟩

theorem pfi_aux_none_iff (offset : Nat) (lh : Int) (ls : List ShapedLine) :
    ∀ acc y, ls ≠ [] → acc ≤ offset →
      (pfi_aux offset lh acc y ls = none ↔
        acc + (ls.map ShapedLine.len).sum < offset) := by
  induction ls with
  | nil => intro acc y h; exact absurd rfl h
  | cons l ls ih =>
    intro acc y _ hacc
    by_cases hhit : acc ≤ offset ∧ offset ≤ acc + l.len
    · simp only [pfi_aux, if_pos hhit]
      constructor
      · intro h; exact absurd h (by simp)
      · intro h
        exfalso
        have : offset ≤ acc + l.len := hhit.2
        simp only [List.map_cons, List.sum_cons] at h
        have := l.len
        omega
    · have hgt : acc + l.len < offset := by
        rcases Nat.lt_or_ge (acc + l.len) offset with h | h
        · exact h
        · exact absurd ⟨hacc, h⟩ hhit
      simp only [pfi_aux, if_neg hhit, List.map_cons, List.sum_cons]
      cases ls with
      | nil =>
        simp only [pfi_aux, List.map_nil, List.sum_nil]
        constructor
        · intro _
          have : ShapedLine.len l = byte_len l.text := rfl
          omega
        · intro _; trivial
      | cons l2 ls2 =>
        have := ih (acc + byte_len l.text) (y + lh) (by simp) (by
          have : ShapedLine.len l = byte_len l.text := rfl
          omega)
        rw [this]
        have hlen : ShapedLine.len l = byte_len l.text := rfl
        omega

/-- C9 (amended): for a LineLayout with at least one wrapped line,
position_for_index returns None exactly when the queried byte offset
exceeds the total byte length of the wrapped segments, and Some position
otherwise; a layout with no wrapped lines returns None for every offset,
including offset zero. -/
theorem claim_C9 :
    (∀ (ll : LineLayout) (offset : Nat) (lh : Int), ll.wrapped_lines ≠ [] →
        (position_for_index ll offset lh = none ↔
          (ll.wrapped_lines.map ShapedLine.len).sum < offset))
  ∧ (∀ (offset : Nat) (lh : Int),
        position_for_index LineLayout.empty offset lh = none) := by
  constructor
  · intro ll offset lh hne
    unfold position_for_index
    simpa using pfi_aux_none_iff offset lh ll.wrapped_lines 0 0 hne (by omega)
  · intro offset lh; rfl

/-- C9 witness: the iff of the theorem applied to a one-segment layout of
two bytes, at an offset inside and an offset beyond it. -/
theorem claim_C9_witness :
    position_for_index (set_wrapped_lines [⟨"ab".toList, 0, fun _ => 0⟩]) 5 1 = none
  ∧ position_for_index (set_wrapped_lines [⟨"ab".toList, 0, fun _ => 0⟩]) 2 1 ≠ none := by
  constructor
  · exact (claim_C9.1 (set_wrapped_lines [⟨"ab".toList, 0, fun _ => 0⟩]) 5 1
      (by simp [set_wrapped_lines])).mpr (by decide)
  · intro h
    have := (claim_C9.1 (set_wrapped_lines [⟨"ab".toList, 0, fun _ => 0⟩]) 2 1
      (by simp [set_wrapped_lines])).mp h
    revert this
    decide

/-- C9 counterexample: the fresh LineLayout has no wrapped lines and total
length zero; offset zero does not lie beyond the total length, yet the
query returns None, against the claim as stated for every LineLayout. -/
theorem claim_C9_counterexample :
    position_for_index LineLayout.empty 0 1 = none
  ∧ ¬ ((LineLayout.empty.wrapped_lines.map ShapedLine.len).sum < 0) := by
  exact ⟨rfl, by simp⟩
theorem clip_offset_of_boundary (s : Txt) (o : Nat) (bias : Bias)
    (h : is_char_boundary s o = true) : clip_offset s o bias = o := by
  have hle : o ≤ byte_len s := boundary_le s o h
  simp [clip_offset, h, Nat.not_lt.mpr hle]

theorem line_idx_aux_lt (ls : List Txt) (o : Nat) (h : ls ≠ []) :
    line_idx_aux ls o < ls.length := by
  induction ls generalizing o with
  | nil => exact absurd rfl h
  | cons l ls ih =>
    cases ls with
    | nil => simp [line_idx_aux]
    | cons l2 ls2 =>
      by_cases ho : o < byte_len l
      · simp [line_idx_aux, ho]
      · simp only [line_idx_aux, if_neg ho]
        have := ih (o - byte_len l) (by simp)
        simp only [List.length_cons] at this ⊢
        omega

theorem line_idx_aux_ge (ls : List Txt) (o : Nat)
    (h : byte_len ls.flatten ≤ o) : line_idx_aux ls o = ls.length - 1 := by
  induction ls generalizing o with
  | nil => simp [line_idx_aux]
  | cons l ls ih =>
    cases ls with
    | nil => simp [line_idx_aux]
    | cons l2 ls2 =>
      rw [List.flatten_cons, byte_len_append] at h
      have hpos : ¬ o < byte_len l := by omega
      simp only [line_idx_aux, if_neg hpos]
      have := ih (o - byte_len l) (by omega)
      simp only [List.length_cons] at this ⊢
      omega

theorem line_idx_aux_start_le (ls : List Txt) (o : Nat) :
    byte_len ((ls.take (line_idx_aux ls o)).flatten) ≤ o := by
  induction ls generalizing o with
  | nil => simp [line_idx_aux, byte_len_nil]
  | cons l ls ih =>
    cases ls with
    | nil =>
      simp only [line_idx_aux, List.take_zero, List.flatten_nil]
      simp [byte_len_nil]
    | cons l2 ls2 =>
      by_cases ho : o < byte_len l
      · simp only [line_idx_aux, if_pos ho, List.take_zero, List.flatten_nil]
        simp [byte_len_nil]
      · simp only [line_idx_aux, if_neg ho]
        have := ih (o - byte_len l)
        have harr : (1 + line_idx_aux (l2 :: ls2) (o - byte_len l))
            = line_idx_aux (l2 :: ls2) (o - byte_len l) + 1 := by omega
        rw [harr, List.take_succ_cons, List.flatten_cons, byte_len_append]
        omega

theorem line_idx_aux_upper (ls : List Txt) (o : Nat)
    (h : o < byte_len ls.flatten) :
    o < byte_len ((ls.take (line_idx_aux ls o + 1)).flatten) := by
  induction ls generalizing o with
  | nil => simp [byte_len_nil] at h
  | cons l ls ih =>
    cases ls with
    | nil =>
      rw [List.flatten_cons, List.flatten_nil, List.append_nil] at h
      simp only [line_idx_aux]
      simpa using h
    | cons l2 ls2 =>
      by_cases ho : o < byte_len l
      · simp only [line_idx_aux, if_pos ho]
        simpa using ho
      · simp only [line_idx_aux, if_neg ho]
        rw [List.flatten_cons, byte_len_append] at h
        have := ih (o - byte_len l) (by omega)
        have harr : (1 + line_idx_aux (l2 :: ls2) (o - byte_len l) + 1)
            = (line_idx_aux (l2 :: ls2) (o - byte_len l) + 1) + 1 := by omega
        rw [harr, List.take_succ_cons, List.flatten_cons, byte_len_append]
        omega
theorem byte_to_line_idx_lt (s : Txt) (o : Nat) :
    byte_to_line_idx s o < lines_len s :=
  line_idx_aux_lt _ _ (lines_crlf_ne_nil s)

theorem line_start_le (s : Txt) (o : Nat) :
    line_to_byte_idx s (byte_to_line_idx s o) ≤ o :=
  line_idx_aux_start_le _ _

theorem byte_len_flatten_lines (s : Txt) :
    byte_len ((lines_crlf s).flatten) = byte_len s := by
  rw [lines_crlf_join]

theorem line_upper (s : Txt) (o : Nat) (h : o < byte_len s) :
    o < byte_len (((lines_crlf s).take (byte_to_line_idx s o + 1)).flatten) :=
  line_idx_aux_upper _ _ (by rwa [byte_len_flatten_lines])

theorem byte_to_line_idx_last (s : Txt) (o : Nat) (h : byte_len s ≤ o) :
    byte_to_line_idx s o = lines_len s - 1 :=
  line_idx_aux_ge _ _ (by rwa [byte_len_flatten_lines])

theorem cons_head_getLast? (c : Char) (l0 : Txt) (ls : List Txt) :
    (cons_head c (l0 :: ls)).getLast? =
      if ls.isEmpty then some (c :: l0) else ls.getLast? := by
  cases ls with
  | nil => simp [cons_head]
  | cons l1 ls1 => simp [cons_head, List.getLast?_cons_cons]

/-- The final line of the LF_CR partition carries no terminator: in
particular it never ends with a line feed. -/
theorem lines_crlf_last_no_nl (s : Txt) (l : Txt)
    (h : (lines_crlf s).getLast? = some l) : l.getLast? ≠ some '\n' := by
  induction s using lines_crlf.induct generalizing l with
  | case1 => simp [lines_crlf] at h; subst h; simp
  | case2 t ih =>
    rw [lines_crlf] at h
    cases hl : lines_crlf t with
    | nil => exact absurd hl (lines_crlf_ne_nil t)
    | cons l0 ls0 =>
      rw [hl, List.getLast?_cons_cons] at h
      exact ih l (hl ▸ h)
  | case3 t hne ih =>
    have heq : lines_crlf ('\r' :: t) = ['\r'] :: lines_crlf t := by
      rw [lines_crlf]
      exact hne
    rw [heq] at h
    cases hl : lines_crlf t with
    | nil => exact absurd hl (lines_crlf_ne_nil t)
    | cons l0 ls0 =>
      rw [hl, List.getLast?_cons_cons] at h
      exact ih l (hl ▸ h)
  | case4 t ih =>
    rw [lines_crlf] at h
    cases hl : lines_crlf t with
    | nil => exact absurd hl (lines_crlf_ne_nil t)
    | cons l0 ls0 =>
      rw [hl, List.getLast?_cons_cons] at h
      exact ih l (hl ▸ h)
  | case5 c t h1 h2 h3 ih =>
    have heq : lines_crlf (c :: t) = cons_head c (lines_crlf t) := by
      rw [lines_crlf]
      · exact h1
      · exact h2
      · exact h3
    rw [heq] at h
    cases hl : lines_crlf t with
    | nil => exact absurd hl (lines_crlf_ne_nil t)
    | cons l0 ls0 =>
      rw [hl, cons_head_getLast?] at h
      by_cases he : ls0.isEmpty
      · rw [if_pos he] at h
        cases h
        have hl0 : (lines_crlf t).getLast? = some l0 := by
          rw [hl]
          cases ls0 with
          | nil => simp
          | cons a b => simp [List.isEmpty] at he
        have hno := ih l0 hl0
        cases l0 with
        | nil =>
          simp only [List.getLast?_singleton]
          intro hc
          exact h3 (by injection hc)
        | cons d u =>
          rw [List.getLast?_cons_cons]
          simpa using hno
      · rw [if_neg he] at h
        have hlast : (lines_crlf t).getLast? = some l := by
          rw [hl]
          cases ls0 with
          | nil => simp [List.isEmpty] at he
          | cons a b => rw [List.getLast?_cons_cons]; exact h
        exact ih l hlast
theorem byte_len_dropLast_nl (l : Txt) (h : l.getLast? = some '\n') :
    byte_len l.dropLast + 1 = byte_len l := by
  have hne : l ≠ [] := by intro he; subst he; simp at h
  have hlast : l.getLast hne = '\n' := by
    have := List.getLast?_eq_getLast l hne
    rw [h] at this
    injection this with hh
    exact hh.symm
  conv_rhs => rw [← List.dropLast_append_getLast hne]
  rw [byte_len_append, hlast]
  simp [byte_len, utf8_len]

theorem dropLast_isPrefix (l : Txt) : l.dropLast <+: l := by
  cases hne : l with
  | nil => simp
  | cons c t =>
    refine ⟨[(c :: t).getLast (by simp)], ?_⟩
    exact List.dropLast_append_getLast (by simp)

theorem buffer_decomp (s : Txt) (r : Nat) (h : r < lines_len s) :
    s = ((lines_crlf s).take r).flatten ++ ((lines_crlf s).getD r []
        ++ ((lines_crlf s).drop (r + 1)).flatten) := by
  conv_lhs => rw [← lines_crlf_join s]
  conv_lhs => rw [← List.take_append_drop r (lines_crlf s)]
  rw [List.flatten_append]
  congr 1
  rw [List.drop_eq_getElem_cons h, List.flatten_cons,
    List.getD_eq_getElem _ _ h]

theorem byte_take_append_left (n : Nat) (P Q : Txt) (h : n ≤ byte_len P) :
    byte_take n (P ++ Q) = byte_take n P := by
  induction P generalizing n with
  | nil =>
    rw [byte_len_nil] at h
    interval_cases n
    cases Q with
    | nil => simp [byte_take]
    | cons c t =>
      have := utf8_len_pos c
      simp [byte_take]
      omega
  | cons c t ih =>
    by_cases hc : utf8_len c ≤ n
    · rw [byte_len_cons] at h
      simp only [List.cons_append, byte_take, if_pos hc]
      rw [show t.append Q = t ++ Q from rfl, ih (n - utf8_len c) (by omega)]
    · simp only [List.cons_append, byte_take, if_neg hc]

theorem boundary_append_left (P Q : Txt) (k : Nat) (h : k ≤ byte_len P) :
    is_char_boundary (P ++ Q) k = is_char_boundary P k := by
  rcases hb : is_char_boundary P k with hf | ht
  · rcases hb2 : is_char_boundary (P ++ Q) k with hf2 | ht2
    · rfl
    · exfalso
      rw [is_char_boundary_iff, byte_take_append_left _ _ _ h] at hb2
      rw [← is_char_boundary_iff] at hb2
      rw [hb] at hb2
      cases hb2
  · rw [is_char_boundary_iff] at hb ⊢
    rw [byte_take_append_left _ _ _ h]
    exact hb

theorem boundary_shift (P Q : Txt) (k : Nat) :
    is_char_boundary (P ++ Q) (byte_len P + k) = is_char_boundary Q k := by
  induction P with
  | nil => simp [byte_len_nil]
  | cons c t ih =>
    have hu := utf8_len_pos c
    rw [byte_len_cons, List.cons_append]
    show is_char_boundary (c :: (t ++ Q)) (utf8_len c + byte_len t + k) = _
    rw [is_char_boundary]
    rw [if_neg (by omega), if_pos (by omega)]
    have harr : utf8_len c + byte_len t + k - utf8_len c = byte_len t + k := by
      omega
    rw [harr]
    exact ih

theorem utf16_len_pos (c : Char) : 0 < utf16_len c := by
  unfold utf16_len
  split <;> simp

theorem utf16_byte_roundtrip (l : Txt) (k : Nat)
    (h : is_char_boundary l k = true) :
    utf16_to_byte_idx l (byte_to_utf16_idx l k) = k := by
  induction l generalizing k with
  | nil =>
    simp only [is_char_boundary, decide_eq_true_eq] at h
    subst h
    rfl
  | cons c t ih =>
    by_cases h0 : k = 0
    · subst h0
      have h8 := utf8_len_pos c
      have h16 := utf16_len_pos c
      simp only [byte_to_utf16_idx, if_neg (by omega : ¬ utf8_len c ≤ 0)]
      simp only [utf16_to_byte_idx, if_neg (by omega : ¬ utf16_len c ≤ 0)]
    · rw [is_char_boundary, if_neg h0] at h
      by_cases hc : utf8_len c ≤ k
      · rw [if_pos hc] at h
        have h16 := utf16_len_pos c
        simp only [byte_to_utf16_idx, if_pos hc]
        simp only [utf16_to_byte_idx, if_pos (by omega :
          utf16_len c ≤ utf16_len c + byte_to_utf16_idx t (k - utf8_len c))]
        rw [Nat.add_sub_cancel_left, ih _ h]
        omega
      · rw [if_neg hc] at h
        cases h

theorem byte_utf16_roundtrip (l : Txt) (x : Nat)
    (h : is_utf16_boundary l x = true) :
    byte_to_utf16_idx l (utf16_to_byte_idx l x) = x := by
  induction l generalizing x with
  | nil =>
    simp only [is_utf16_boundary, decide_eq_true_eq] at h
    subst h
    rfl
  | cons c t ih =>
    by_cases h0 : x = 0
    · subst h0
      have h8 := utf8_len_pos c
      have h16 := utf16_len_pos c
      simp only [utf16_to_byte_idx, if_neg (by omega : ¬ utf16_len c ≤ 0)]
      simp only [byte_to_utf16_idx, if_neg (by omega : ¬ utf8_len c ≤ 0)]
    · rw [is_utf16_boundary, if_neg h0] at h
      by_cases hc : utf16_len c ≤ x
      · rw [if_pos hc] at h
        have h8 := utf8_len_pos c
        simp only [utf16_to_byte_idx, if_pos hc]
        simp only [byte_to_utf16_idx, if_pos (by omega :
          utf8_len c ≤ utf8_len c + utf16_to_byte_idx t (x - utf16_len c))]
        rw [Nat.add_sub_cancel_left, ih _ h]
        omega
      · rw [if_neg hc] at h
        cases h

theorem byte_to_utf16_le (s : Txt) (o : Nat) :
    byte_to_utf16_idx s o ≤ utf16_total s := by
  induction s generalizing o with
  | nil => simp [byte_to_utf16_idx, utf16_total]
  | cons c t ih =>
    by_cases hc : utf8_len c ≤ o <;>
      simp only [byte_to_utf16_idx, if_pos, if_neg, hc, utf16_total,
        List.map_cons, List.sum_cons]
    · have := ih (o - utf8_len c)
      unfold utf16_total at this
      omega
    · simp
  
theorem utf16_to_byte_le (s : Txt) (x : Nat) :
    utf16_to_byte_idx s x ≤ byte_len s := by
  induction s generalizing x with
  | nil => simp [utf16_to_byte_idx, byte_len_nil]
  | cons c t ih =>
    by_cases hc : utf16_len c ≤ x
    · simp only [utf16_to_byte_idx, if_pos hc, byte_len_cons]
      have := ih (x - utf16_len c)
      omega
    · simp [utf16_to_byte_idx, if_neg hc, byte_len]

theorem utf16_boundary_le (s : Txt) (x : Nat)
    (h : is_utf16_boundary s x = true) : x ≤ utf16_total s := by
  induction s generalizing x with
  | nil =>
    simp only [is_utf16_boundary, decide_eq_true_eq] at h
    simp [h, utf16_total]
  | cons c t ih =>
    by_cases h0 : x = 0
    · simp [h0]
    · rw [is_utf16_boundary, if_neg h0] at h
      by_cases hc : utf16_len c ≤ x
      · rw [if_pos hc] at h
        have := ih _ h
        simp only [utf16_total, List.map_cons, List.sum_cons]
        unfold utf16_total at this
        omega
      · rw [if_neg hc] at h
        cases h
theorem slice_row_of_lt (s : Txt) (r : Nat) (h : r < lines_len s) :
    slice_row s r = (if ((lines_crlf s).getD r []).getLast? = some '\n'
      then ((lines_crlf s).getD r []).dropLast
      else (lines_crlf s).getD r []) := by
  unfold slice_row
  rw [if_neg (by omega)]

theorem slice_row_isPrefix (s : Txt) (r : Nat) :
    slice_row s r <+: (lines_crlf s).getD r [] := by
  by_cases h : r < lines_len s
  · rw [slice_row_of_lt s r h]
    by_cases hnl : ((lines_crlf s).getD r []).getLast? = some '\n'
    · rw [if_pos hnl]; exact dropLast_isPrefix _
    · rw [if_neg hnl]
  · unfold slice_row
    rw [if_pos (by omega)]
    exact List.nil_prefix

theorem start_succ (s : Txt) (r : Nat) (h : r < lines_len s) :
    byte_len (((lines_crlf s).take (r + 1)).flatten)
      = line_to_byte_idx s r + byte_len ((lines_crlf s).getD r []) := by
  unfold line_to_byte_idx
  rw [List.take_succ, List.getElem?_eq_getElem h, List.flatten_append,
    byte_len_append, List.getD_eq_getElem _ _ h]
  simp

theorem lines_len_pos (s : Txt) : 0 < lines_len s := by
  unfold lines_len
  have := lines_crlf_ne_nil s
  cases h : lines_crlf s with
  | nil => exact absurd h this
  | cons a b => simp

theorem column_le_line_len (s : Txt) (o : Nat)
    (hb : is_char_boundary s o = true) :
    o - line_to_byte_idx s (byte_to_line_idx s o)
      ≤ line_len s (byte_to_line_idx s o) := by
  have hr : byte_to_line_idx s o < lines_len s := byte_to_line_idx_lt s o
  have hle : o ≤ byte_len s := boundary_le _ _ hb
  have hs := line_start_le s o
  rcases Nat.lt_or_ge o (byte_len s) with hlt | hge
  · have hup : o < line_to_byte_idx s (byte_to_line_idx s o)
        + byte_len ((lines_crlf s).getD (byte_to_line_idx s o) []) := by
      have h1 := line_upper s o hlt
      rwa [start_succ s _ hr] at h1
    unfold line_len
    rw [slice_row_of_lt s _ hr]
    by_cases hnl : ((lines_crlf s).getD (byte_to_line_idx s o) []).getLast?
        = some '\n'
    · rw [if_pos hnl]
      have hd := byte_len_dropLast_nl _ hnl
      omega
    · rw [if_neg hnl]
      omega
  · have hrlast : byte_to_line_idx s o = lines_len s - 1 :=
      byte_to_line_idx_last s o hge
    have hpos := lines_len_pos s
    have hdrop : (lines_crlf s).drop (byte_to_line_idx s o + 1) = [] := by
      apply List.drop_eq_nil_of_le
      show lines_len s ≤ _
      omega
    have hdecomp := buffer_decomp s _ hr
    rw [hdrop, List.flatten_nil, List.append_nil] at hdecomp
    have hlen : byte_len s = line_to_byte_idx s (byte_to_line_idx s o)
        + byte_len ((lines_crlf s).getD (byte_to_line_idx s o) []) := by
      conv_lhs => rw [hdecomp]
      rw [byte_len_append]
      rfl
    have hlastL : (lines_crlf s).getLast?
        = some ((lines_crlf s).getD (byte_to_line_idx s o) []) := by
      have hidx : (lines_crlf s).length - 1 = byte_to_line_idx s o := by
        show lines_len s - 1 = _
        omega
      rw [List.getLast?_eq_getElem?, hidx, List.getElem?_eq_getElem hr,
        List.getD_eq_getElem _ _ hr]
    have hnl := lines_crlf_last_no_nl s _ hlastL
    unfold line_len
    rw [slice_row_of_lt s _ hr, if_neg hnl]
    omega

theorem column_boundary (s : Txt) (o : Nat)
    (hb : is_char_boundary s o = true) :
    is_char_boundary (slice_row s (byte_to_line_idx s o))
      (o - line_to_byte_idx s (byte_to_line_idx s o)) = true := by
  have hr : byte_to_line_idx s o < lines_len s := byte_to_line_idx_lt s o
  have hs := line_start_le s o
  have hdecomp := buffer_decomp s _ hr
  have h1 : is_char_boundary ((lines_crlf s).getD (byte_to_line_idx s o) []
      ++ ((lines_crlf s).drop (byte_to_line_idx s o + 1)).flatten)
      (o - line_to_byte_idx s (byte_to_line_idx s o)) = true := by
    have hsh := boundary_shift (((lines_crlf s).take (byte_to_line_idx s o)).flatten)
      ((lines_crlf s).getD (byte_to_line_idx s o) []
        ++ ((lines_crlf s).drop (byte_to_line_idx s o + 1)).flatten)
      (o - line_to_byte_idx s (byte_to_line_idx s o))
    have harg : byte_len (((lines_crlf s).take (byte_to_line_idx s o)).flatten)
        + (o - line_to_byte_idx s (byte_to_line_idx s o)) = o := by
      show line_to_byte_idx s (byte_to_line_idx s o) + _ = o
      omega
    rw [harg] at hsh
    rw [← hsh, ← hdecomp]
    exact hb
  obtain ⟨X, hX⟩ := slice_row_isPrefix s (byte_to_line_idx s o)
  rw [← hX, List.append_assoc] at h1
  rw [← boundary_append_left _ _ _ (column_le_line_len s o hb)]
  exact h1
theorem line_start_offset_of_lt (s : Txt) (r : Nat) (h : r < lines_len s) :
    line_start_offset s r = line_to_byte_idx s r := by
  unfold line_start_offset point_to_offset
  rw [if_neg (by simp only []; omega)]
  simp

theorem position_roundtrip (s : Txt) (o : Nat)
    (hb : is_char_boundary s o = true) :
    position_to_offset s (offset_to_position s o) = o := by
  have hclip : clip_offset s o Bias.left = o :=
    clip_offset_of_boundary _ _ _ hb
  have hcb := column_boundary s o hb
  simp only [offset_to_position, offset_to_point, hclip]
  rw [utf16_byte_roundtrip _ _ hcb]
  simp only [position_to_offset]
  have hpref : byte_take (o - line_to_byte_idx s (byte_to_line_idx s o))
      (slice_row s (byte_to_line_idx s o)) <+: slice_row s (byte_to_line_idx s o) :=
    ⟨_, byte_take_append_drop _ _⟩
  rw [← List.prefix_iff_eq_take.mp hpref]
  rw [(is_char_boundary_iff _ _).mp hcb]
  rw [line_start_offset_of_lt s _ (byte_to_line_idx_lt s o)]
  have := line_start_le s o
  omega

/-- C3: on every buffer, for every byte offset on a character boundary the
position conversion round-trips, and for every UTF-16 offset on a character
boundary (one that does not split a surrogate pair) the UTF-16 conversion
round-trips, as does the byte-offset direction. -/
theorem claim_C3 :
    (∀ (s : Txt) (o : Nat), is_char_boundary s o = true →
        position_to_offset s (offset_to_position s o) = o)
  ∧ (∀ (s : Txt) (x : Nat), is_utf16_boundary s x = true →
        offset_to_offset_utf16 s (offset_utf16_to_offset s x) = x)
  ∧ (∀ (s : Txt) (o : Nat), is_char_boundary s o = true →
        offset_utf16_to_offset s (offset_to_offset_utf16 s o) = o) := by
  refine ⟨position_roundtrip, ?_, ?_⟩
  · intro s x h
    have hxle : x ≤ utf16_total s := utf16_boundary_le s x h
    unfold offset_utf16_to_offset
    rw [if_neg (by omega)]
    unfold offset_to_offset_utf16
    rw [if_neg (by have := utf16_to_byte_le s x; omega)]
    exact byte_utf16_roundtrip s x h
  · intro s o h
    have hole : o ≤ byte_len s := boundary_le s o h
    unfold offset_to_offset_utf16
    rw [if_neg (by omega)]
    unfold offset_utf16_to_offset
    rw [if_neg (by have := byte_to_utf16_le s o; omega)]
    exact utf16_byte_roundtrip s o h

/-- C3 witness: the three round trips at concrete offsets of the UTF-16
test buffer, where byte offset 12 ends the CJK pair and UTF-16 offset 9
falls between the surrogate halves of no character. -/
theorem claim_C3_witness :
    position_to_offset demo_utf (offset_to_position demo_utf 12) = 12
  ∧ offset_to_offset_utf16 demo_utf (offset_utf16_to_offset demo_utf 8) = 8
  ∧ offset_utf16_to_offset demo_utf (offset_to_offset_utf16 demo_utf 16) = 16 :=
  ⟨claim_C3.1 demo_utf 12 (by decide),
   claim_C3.2.1 demo_utf 8 (by decide),
   claim_C3.2.2 demo_utf 16 (by decide)⟩

theorem boundary_of_isPrefix (P s : Txt) (h : P <+: s) :
    is_char_boundary s (byte_len P) = true := by
  obtain ⟨Z, hZ⟩ := h
  subst hZ
  exact boundary_of_prefix _ _

theorem start_prefix_mono (s : Txt) (r : Nat) (P : Txt) (hr : r < lines_len s)
    (hP : P <+: slice_row s r) :
    (((lines_crlf s).take r).flatten ++ P) <+: s := by
  obtain ⟨X, hX⟩ := hP
  obtain ⟨Y, hY⟩ := slice_row_isPrefix s r
  have hdecomp := buffer_decomp s r hr
  refine ⟨X ++ (Y ++ ((lines_crlf s).drop (r + 1)).flatten), ?_⟩
  conv_rhs => rw [hdecomp]
  rw [List.append_assoc]
  congr 1
  rw [← List.append_assoc, hX, ← List.append_assoc, hY]

theorem position_to_offset_eq (s : Txt) (pos : Position) (h : pos.line < lines_len s) :
    position_to_offset s pos
      = byte_len (((lines_crlf s).take pos.line).flatten
          ++ (slice_row s pos.line).take pos.character) := by
  simp only [position_to_offset]
  rw [line_start_offset_of_lt s _ h, byte_len_append]
  rfl

theorem slice_row_oob (s : Txt) (r : Nat) (h : lines_len s ≤ r) :
    slice_row s r = [] := by
  unfold slice_row
  rw [if_pos (by omega)]

theorem line_start_offset_oob (s : Txt) (r : Nat) (h : lines_len s ≤ r) :
    line_start_offset s r = byte_len s := by
  unfold line_start_offset point_to_offset
  rw [if_pos (by simp only []; omega)]

theorem line_end_offset_ge (s : Txt) (r : Nat) (h : lines_len s ≤ r) :
    line_end_offset s r = byte_len s := by
  unfold line_end_offset
  by_cases hgt : r > lines_len s
  · rw [if_pos hgt]
  · rw [if_neg hgt]
    rw [line_start_offset_oob s r h]
    unfold line_len
    rw [slice_row_oob s r h]
    simp [byte_len_nil]

/-- C10: position_to_offset is total on every buffer and Position: the
result never exceeds the byte length, always falls on a character boundary,
an out-of-range line maps to the buffer end, and an out-of-range character
count maps to the end of the content of its line. -/
theorem claim_C10 :
    ∀ (s : Txt) (pos : Position),
      position_to_offset s pos ≤ byte_len s
    ∧ is_char_boundary s (position_to_offset s pos) = true
    ∧ (lines_len s ≤ pos.line → position_to_offset s pos = byte_len s)
    ∧ ((slice_row s pos.line).length ≤ pos.character →
        position_to_offset s pos = line_end_offset s pos.line) := by
  intro s pos
  by_cases h : pos.line < lines_len s
  · have hpre := start_prefix_mono s pos.line
      ((slice_row s pos.line).take pos.character) h (List.take_prefix _ _)
    have heq := position_to_offset_eq s pos h
    refine ⟨?_, ?_, ?_, ?_⟩
    · rw [heq]
      exact byte_len_prefix_le _ _ hpre
    · rw [heq]
      exact boundary_of_isPrefix _ _ hpre
    · intro hc; omega
    · intro hc
      rw [heq, List.take_of_length_le hc]
      unfold line_end_offset
      rw [if_neg (by omega), line_start_offset_of_lt s _ h, byte_len_append]
      rfl
  · have hge : lines_len s ≤ pos.line := by omega
    have hval : position_to_offset s pos = byte_len s := by
      simp only [position_to_offset]
      rw [slice_row_oob s _ hge, line_start_offset_oob s _ hge]
      simp [byte_len_nil]
    refine ⟨by omega, ?_, fun _ => hval, fun _ => ?_⟩
    · rw [hval]
      exact boundary_byte_len s
    · rw [hval, line_end_offset_ge s _ hge]
/-- C10 witness: the out-of-range clauses at concrete positions. -/
theorem claim_C10_witness :
    position_to_offset demo_utf ⟨10, 3⟩ = byte_len demo_utf
  ∧ position_to_offset demo_utf ⟨0, 99⟩ = line_end_offset demo_utf 0 :=
  ⟨(claim_C10 demo_utf ⟨10, 3⟩).2.2.1 (by decide),
   (claim_C10 demo_utf ⟨0, 99⟩).2.2.2 (by decide)⟩
theorem byte_drop_eq_nil_iff (n : Nat) (l : Txt) :
    byte_drop n l = [] ↔ byte_len l ≤ n := by
  induction l generalizing n with
  | nil => simp [byte_drop, byte_len_nil]
  | cons c t ih =>
    by_cases hc : utf8_len c ≤ n
    · rw [byte_drop, if_pos hc, ih, byte_len_cons]
      omega
    · rw [byte_drop, if_neg hc, byte_len_cons]
      constructor
      · intro h; cases h
      · intro h
        have := utf8_len_pos c
        omega

theorem chain_from_seg (a : Nat) (bs : List Nat)
    (hsort : List.Pairwise (· < ·) bs) (hlb : ∀ b ∈ bs, a ≤ b) :
    chain_from a (seg_ranges a bs) (last_prev a bs) := by
  induction bs generalizing a with
  | nil => simp [seg_ranges, last_prev, chain_from]
  | cons b bs ih =>
    rw [List.pairwise_cons] at hsort
    refine ⟨rfl, hlb b (by simp), ?_⟩
    exact ih b hsort.2 (fun b2 hb2 => Nat.le_of_lt (hsort.1 b2 hb2))

theorem chain_from_append_last (a m n : Nat) (rs : List RangeN)
    (h : chain_from a rs m) (hmn : m ≤ n) :
    chain_from a (rs ++ [⟨m, n⟩]) n := by
  induction rs generalizing a with
  | nil =>
    simp only [chain_from] at h
    subst h
    exact ⟨rfl, hmn, rfl⟩
  | cons r rs ih =>
    obtain ⟨h1, h2, h3⟩ := h
    exact ⟨h1, h2, ih _ h3⟩

theorem last_prev_le (a : Nat) (bs : List Nat) (bound : Nat)
    (ha : a ≤ bound) (hb : ∀ b ∈ bs, b ≤ bound) : last_prev a bs ≤ bound := by
  induction bs generalizing a with
  | nil => exact ha
  | cons b bs ih =>
    exact ih b (hb b (by simp)) (fun b2 hb2 => hb b2 (by simp [hb2]))

theorem seg_ranges_ne_nil (a : Nat) (bs : List Nat) (h : bs ≠ []) :
    seg_ranges a bs ≠ [] := by
  cases bs with
  | nil => exact absurd rfl h
  | cons b bs => simp [seg_ranges]

theorem make_wrapped_partition (f : WrapFn) (w : Option Nat) (l : Txt)
    (hf : sane_wrap f) :
    partition_ok (make_wrapped_lines f w l) (byte_len l) := by
  unfold make_wrapped_lines
  cases w with
  | none =>
    simp only []
    rw [if_pos (by simp [last_prev])]
    exact ⟨by simp [seg_ranges], by
      simp only [seg_ranges, last_prev, List.nil_append]
      exact ⟨rfl, Nat.zero_le _, rfl⟩⟩
  | some width =>
    simp only []
    obtain ⟨hsort, hbound⟩ := hf l width
    have hchain : chain_from 0 (seg_ranges 0 (f l width))
        (last_prev 0 (f l width)) :=
      chain_from_seg 0 (f l width) hsort (fun b _ => Nat.zero_le b)
    have hple : last_prev 0 (f l width) ≤ byte_len l :=
      last_prev_le 0 (f l width) (byte_len l) (Nat.zero_le _)
        (fun b hb => (hbound b hb).2)
    by_cases hcond : byte_drop (last_prev 0 (f l width)) l ≠ []
        ∨ last_prev 0 (f l width) = 0
    · rw [if_pos hcond]
      constructor
      · simp
      · exact chain_from_append_last _ _ _ _ hchain hple
    · rw [if_neg hcond]
      push_neg at hcond
      obtain ⟨hnil, hnz⟩ := hcond
      rw [byte_drop_eq_nil_iff] at hnil
      have heq : last_prev 0 (f l width) = byte_len l := by omega
      refine ⟨?_, heq ▸ hchain⟩
      apply seg_ranges_ne_nil
      intro hbs
      rw [hbs] at hnz
      exact hnz rfl

theorem new_line_items_ne_nil (f : WrapFn) (w : Option Nat) (sl : Txt) :
    new_line_items f w sl ≠ [] := by
  unfold new_line_items
  simp only [ne_eq, List.map_eq_nil_iff]
  exact split_lf_ne_nil sl

theorem update_lines_ne_nil (f : WrapFn) (s : TextWrapper) (changed : Txt)
    (range : RangeN) (new_text : Txt) :
    (update f s changed range new_text).lines ≠ [] := by
  unfold update
  simp only []
  by_cases h : s.lines.length = 0
  · rw [if_pos h]
    exact new_line_items_ne_nil _ _ _
  · rw [if_neg h]
    unfold splice_lines
    simp only [ne_eq, List.append_eq_nil, List.append_eq_nil]
    intro hc
    exact new_line_items_ne_nil _ _ _ hc.1.2

theorem update_lines_mem (f : WrapFn) (s : TextWrapper) (changed : Txt)
    (range : RangeN) (new_text : Txt) (it : LineItem)
    (h : it ∈ (update f s changed range new_text).lines) :
    it ∈ s.lines ∨ ∃ l : Txt, it = ⟨l, make_wrapped_lines f s.wrap_width l⟩ := by
  unfold update at h
  simp only [] at h
  have hnew : ∀ sl : Txt, it ∈ new_line_items f s.wrap_width sl →
      ∃ l : Txt, it = ⟨l, make_wrapped_lines f s.wrap_width l⟩ := by
    intro sl hmem
    unfold new_line_items at hmem
    obtain ⟨l, _, hl⟩ := List.mem_map.mp hmem
    exact ⟨l, hl.symm⟩
  by_cases hz : s.lines.length = 0
  · rw [if_pos hz] at h
    exact Or.inr (hnew _ h)
  · rw [if_neg hz] at h
    unfold splice_lines at h
    rcases List.mem_append.mp h with h1 | h2
    · rcases List.mem_append.mp h1 with h3 | h4
      · exact Or.inl (List.mem_of_mem_take h3)
      · exact Or.inr (hnew _ h4)
    · exact Or.inl (List.mem_of_mem_drop h2)
theorem byte_take_self (l : Txt) : byte_take (byte_len l) l = l := by
  induction l with
  | nil => rfl
  | cons c t ih =>
    rw [byte_len_cons, byte_take, if_pos (by omega)]
    rw [Nat.add_sub_cancel_left, ih]

theorem byte_take_prefix_full (P Q : Txt) :
    byte_take (byte_len P) (P ++ Q) = P := by
  rw [byte_take_append_left _ _ _ (Nat.le_refl _), byte_take_self]

theorem byte_take_append_right (n : Nat) (P Q : Txt) (h : byte_len P ≤ n) :
    byte_take n (P ++ Q) = P ++ byte_take (n - byte_len P) Q := by
  induction P generalizing n with
  | nil => simp [byte_len_nil]
  | cons c t ih =>
    rw [byte_len_cons] at h
    rw [List.cons_append, byte_take, if_pos (by omega), byte_len_cons]
    rw [ih (n - utf8_len c) (by omega)]
    rw [show n - utf8_len c - byte_len t = n - (utf8_len c + byte_len t) by omega]
    rfl

theorem byte_drop_append_ge (n : Nat) (P Q : Txt) (h : byte_len P ≤ n) :
    byte_drop n (P ++ Q) = byte_drop (n - byte_len P) Q := by
  induction P generalizing n with
  | nil => simp [byte_len_nil]
  | cons c t ih =>
    rw [byte_len_cons] at h
    rw [List.cons_append, byte_drop, if_pos (by omega), byte_len_cons]
    rw [ih (n - utf8_len c) (by omega)]
    rw [show n - utf8_len c - byte_len t = n - (utf8_len c + byte_len t) by omega]

theorem byte_drop_zero (l : Txt) : byte_drop 0 l = l := by
  cases l with
  | nil => rfl
  | cons c t =>
    rw [byte_drop, if_neg (by have := utf8_len_pos c; omega)]

theorem byte_drop_prefix_full (P Q : Txt) :
    byte_drop (byte_len P) (P ++ Q) = Q := by
  rw [byte_drop_append_ge _ _ _ (Nat.le_refl _), Nat.sub_self, byte_drop_zero]

theorem count_nl_append (a b : Txt) :
    count_nl (a ++ b) = count_nl a + count_nl b := by
  simp [count_nl, List.countP_append]

theorem count_nl_le_breaks (s : Txt) :
    count_nl s ≤ crlf_break_count s := by
  induction s using crlf_break_count.induct with
  | case1 => simp [count_nl, crlf_break_count]
  | case2 t ih =>
    rw [crlf_break_count, count_nl_cons, count_nl_cons]
    rw [if_neg (by decide : ¬ ('\r' : Char) = '\n'),
      if_pos (rfl : ('\n' : Char) = '\n')]
    omega
  | case3 t hne ih =>
    have heq : crlf_break_count ('\r' :: t) = 1 + crlf_break_count t := by
      rw [crlf_break_count]
      exact hne
    rw [heq, count_nl_cons, if_neg (by decide : ¬ ('\r' : Char) = '\n')]
    omega
  | case4 t ih =>
    rw [crlf_break_count, count_nl_cons, if_pos rfl]
    omega
  | case5 c t h1 h2 h3 ih =>
    have heq : crlf_break_count (c :: t) = crlf_break_count t := by
      rw [crlf_break_count]
      · exact h1
      · exact h2
      · exact h3
    rw [heq, count_nl_cons, if_neg h3]
    omega
theorem byte_len_pos_of_ne (l : Txt) (h : l ≠ []) : 0 < byte_len l := by
  cases l with
  | nil => exact absurd rfl h
  | cons c t =>
    rw [byte_len_cons]
    have := utf8_len_pos c
    omega

theorem aux_cons_head (c : Char) (l0 : Txt) (ls0 : List Txt) (o : Nat)
    (h : utf8_len c ≤ o) :
    line_idx_aux (cons_head c (l0 :: ls0)) o
      = line_idx_aux (l0 :: ls0) (o - utf8_len c) := by
  cases ls0 with
  | nil => simp [cons_head, line_idx_aux]
  | cons l2 ls2 =>
    simp only [cons_head, line_idx_aux, byte_len_cons]
    by_cases ho : o - utf8_len c < byte_len l0
    · rw [if_pos (by omega), if_pos ho]
    · rw [if_neg (by omega), if_neg ho]
      rw [show o - utf8_len c - byte_len l0 = o - (utf8_len c + byte_len l0)
        from by omega]

theorem byte_take_zero (l : Txt) : byte_take 0 l = [] := by
  cases l with
  | nil => rfl
  | cons c t =>
    rw [byte_take, if_neg (by have := utf8_len_pos c; omega)]

/-- The clean-row characterization: in a buffer without lone carriage
returns, the row of a byte offset is the number of line feeds among the
bytes before it. -/
theorem clean_row (s : Txt) (o : Nat) (h : no_lone_cr s = true) :
    byte_to_line_idx s o = count_nl (byte_take o s) := by
  unfold byte_to_line_idx
  induction s using lines_crlf.induct generalizing o with
  | case1 =>
    simp [lines_crlf, line_idx_aux, byte_take, count_nl]
  | case2 t ih =>
    rw [no_lone_cr] at h
    have hr : utf8_len '\r' = 1 := by decide
    have hn : utf8_len '\n' = 1 := by decide
    rw [lines_crlf]
    cases hl : lines_crlf t with
    | nil => exact absurd hl (lines_crlf_ne_nil t)
    | cons m ms =>
      have hb2 : byte_len ['\r', '\n'] = 2 := by decide
      by_cases ho : o < 2
      · rw [line_idx_aux, if_pos (by rw [hb2]; omega)]
        interval_cases o
        · rw [byte_take_zero]
          rfl
        · rw [byte_take, if_pos (by omega), hr, byte_take_zero]
          rfl
      · rw [line_idx_aux, if_neg (by rw [hb2]; omega)]
        rw [byte_take, if_pos (by omega), hr, byte_take, if_pos (by omega), hn]
        rw [show o - 1 - 1 = o - 2 from by omega]
        rw [count_nl_cons, count_nl_cons]
        rw [if_neg (by decide : ¬ ('\r' : Char) = '\n'), if_pos rfl]
        have := ih (o - 2) h
        rw [hl] at this
        rw [hb2, this]
        omega
  | case3 t hne ih =>
    exfalso
    have hfalse : no_lone_cr ('\r' :: t) = false := by
      rw [no_lone_cr]
      exact hne
    rw [hfalse] at h
    cases h
  | case4 t ih =>
    have hnr : ¬ ('\n' : Char) = '\r' := by decide
    have hred : no_lone_cr ('\n' :: t) = no_lone_cr t := by
      rw [no_lone_cr]
      · exact fun t2 hc _ => hnr hc
      · exact hnr
    rw [hred] at h
    have hn : utf8_len '\n' = 1 := by decide
    rw [lines_crlf]
    cases hl : lines_crlf t with
    | nil => exact absurd hl (lines_crlf_ne_nil t)
    | cons m ms =>
      have hb1 : byte_len ['\n'] = 1 := by decide
      by_cases ho : o < 1
      · rw [line_idx_aux, if_pos (by rw [hb1]; omega)]
        interval_cases o
        rw [byte_take_zero]
        rfl
      · rw [line_idx_aux, if_neg (by rw [hb1]; omega)]
        rw [byte_take, if_pos (by omega), hn]
        rw [count_nl_cons, if_pos rfl]
        have := ih (o - 1) h
        rw [hl] at this
        rw [hb1, this]
  | case5 c t h1 h2 h3 ih =>
    have hred : no_lone_cr (c :: t) = no_lone_cr t := by
      rw [no_lone_cr]
      · exact fun t2 hc _ => h2 hc
      · exact h2
    rw [hred] at h
    have heq : lines_crlf (c :: t) = cons_head c (lines_crlf t) := by
      rw [lines_crlf]
      · exact h1
      · exact h2
      · exact h3
    rw [heq]
    cases hl : lines_crlf t with
    | nil => exact absurd hl (lines_crlf_ne_nil t)
    | cons m ms =>
      by_cases ho : utf8_len c ≤ o
      · rw [aux_cons_head c m ms o ho]
        rw [byte_take, if_pos ho, count_nl_cons, if_neg h3]
        have := ih (o - utf8_len c) h
        rw [hl] at this
        rw [this]
        omega
      · have haux : line_idx_aux (cons_head c (m :: ms)) o = 0 := by
          cases ms with
          | nil => simp [cons_head, line_idx_aux]
          | cons m2 ms2 =>
            simp only [cons_head, line_idx_aux, byte_len_cons]
            rw [if_pos (by omega)]
        rw [haux, byte_take, if_neg ho]
        rfl
/-- In a clean buffer every non-final row of the LF_CR partition ends with
a line feed (its terminator; a CRLF terminator also ends with the feed). -/
theorem clean_row_ends_nl (s : Txt) (h : no_lone_cr s = true) (i : Nat)
    (hi : i + 1 < (lines_crlf s).length) :
    ((lines_crlf s).getD i []).getLast? = some '\n' := by
  induction s using lines_crlf.induct generalizing i with
  | case1 => simp [lines_crlf] at hi
  | case2 t ih =>
    rw [no_lone_cr] at h
    rw [lines_crlf] at hi ⊢
    cases i with
    | zero => rfl
    | succ j =>
      simp only [List.getD_cons_succ]
      simp only [List.length_cons] at hi
      exact ih h j (by omega)
  | case3 t hne ih =>
    exfalso
    have hfalse : no_lone_cr ('\r' :: t) = false := by
      rw [no_lone_cr]
      exact hne
    rw [hfalse] at h
    cases h
  | case4 t ih =>
    have hnr : ¬ ('\n' : Char) = '\r' := by decide
    have hred : no_lone_cr ('\n' :: t) = no_lone_cr t := by
      rw [no_lone_cr]
      · exact fun t2 hc _ => hnr hc
      · exact hnr
    rw [hred] at h
    rw [lines_crlf] at hi ⊢
    cases i with
    | zero => rfl
    | succ j =>
      simp only [List.getD_cons_succ]
      simp only [List.length_cons] at hi
      exact ih h j (by omega)
  | case5 c t h1 h2 h3 ih =>
    have hred : no_lone_cr (c :: t) = no_lone_cr t := by
      rw [no_lone_cr]
      · exact fun t2 hc _ => h2 hc
      · exact h2
    rw [hred] at h
    have heq : lines_crlf (c :: t) = cons_head c (lines_crlf t) := by
      rw [lines_crlf]
      · exact h1
      · exact h2
      · exact h3
    rw [heq] at hi ⊢
    cases hl : lines_crlf t with
    | nil => exact absurd hl (lines_crlf_ne_nil t)
    | cons m ms =>
      rw [hl] at hi
      cases i with
      | zero =>
        simp only [cons_head, List.getD_cons_zero]
        simp only [cons_head, List.length_cons] at hi
        have hm : m.getLast? = some '\n' := by
          have := ih h 0 (by rw [hl]; simpa using hi)
          rw [hl] at this
          simpa using this
        have hmne : m ≠ [] := by
          intro he
          rw [he] at hm
          simp at hm
        cases m with
        | nil => exact absurd rfl hmne
        | cons d u =>
          rw [List.getLast?_cons_cons]
          exact hm
      | succ j =>
        simp only [cons_head, List.getD_cons_succ]
        simp only [cons_head, List.length_cons] at hi
        have := ih h (j + 1) (by rw [hl]; simp only [List.length_cons]; omega)
        rw [hl] at this
        simpa using this

/-- The row of the byte offset starting row r is r, provided every earlier
row is non-empty. -/
theorem aux_start (ls : List Txt) (r : Nat) (hr : r < ls.length)
    (hne : ∀ i, i + 1 < ls.length → ls.getD i [] ≠ []) :
    line_idx_aux ls (byte_len ((ls.take r).flatten)) = r := by
  induction ls generalizing r with
  | nil => simp at hr
  | cons l rest ih =>
    cases r with
    | zero =>
      simp only [List.take_zero, List.flatten_nil, byte_len_nil]
      cases rest with
      | nil => rfl
      | cons r2 rs =>
        have hl : l ≠ [] := by
          have := hne 0 (by simp only [List.length_cons]; omega)
          simpa using this
        rw [line_idx_aux, if_pos (byte_len_pos_of_ne l hl)]
    | succ j =>
      simp only [List.length_cons] at hr
      cases rest with
      | nil => simp at hr
      | cons r2 rs =>
        rw [List.take_succ_cons, List.flatten_cons, byte_len_append]
        rw [line_idx_aux,
          if_neg (by omega), Nat.add_sub_cancel_left]
        have := ih j (by simpa using hr) (fun i hi => by
          have := hne (i + 1) (by simp only [List.length_cons] at hi ⊢; omega)
          simpa using this)
        omega
theorem lines_ne_of_clean (s : Txt) (h : no_lone_cr s = true) (i : Nat)
    (hi : i + 1 < (lines_crlf s).length) : (lines_crlf s).getD i [] ≠ [] := by
  intro he
  have := clean_row_ends_nl s h i hi
  rw [he] at this
  simp at this

theorem flatten_take_isPrefix (s : Txt) (r : Nat) :
    ((lines_crlf s).take r).flatten <+: s := by
  conv_rhs => rw [← lines_crlf_join s]
  conv_rhs => rw [← List.take_append_drop r (lines_crlf s)]
  rw [List.flatten_append]
  exact ⟨_, rfl⟩

/-- In a clean buffer, the flattened first r rows contain exactly r line
feeds. -/
theorem byte_take_of_isPrefix (P s : Txt) (h : P <+: s) :
    byte_take (byte_len P) s = P := by
  obtain ⟨Q, hQ⟩ := h
  subst hQ
  exact byte_take_prefix_full P Q

theorem clean_count_take (s : Txt) (h : no_lone_cr s = true) (r : Nat)
    (hr : r < lines_len s) :
    count_nl (((lines_crlf s).take r).flatten) = r := by
  have h1 := clean_row s (byte_len (((lines_crlf s).take r).flatten)) h
  unfold byte_to_line_idx at h1
  rw [aux_start (lines_crlf s) r hr (lines_ne_of_clean s h)] at h1
  rw [byte_take_of_isPrefix _ _ (flatten_take_isPrefix s r)] at h1
  exact h1.symm

theorem count_take_succ (s : Txt) (r : Nat) (h : r < lines_len s) :
    count_nl (((lines_crlf s).take (r + 1)).flatten)
      = count_nl (((lines_crlf s).take r).flatten)
        + count_nl ((lines_crlf s).getD r []) := by
  rw [List.take_succ, List.getElem?_eq_getElem h, List.flatten_append,
    count_nl_append, List.getD_eq_getElem _ _ h]
  simp [count_nl]

theorem count_nl_dropLast_nl (l : Txt) (h : l.getLast? = some '\n') :
    count_nl l.dropLast + 1 = count_nl l := by
  have hne : l ≠ [] := by intro he; subst he; simp at h
  have hlast : l.getLast hne = '\n' := by
    have := List.getLast?_eq_getLast l hne
    rw [h] at this
    injection this with hh
    exact hh.symm
  conv_rhs => rw [← List.dropLast_append_getLast hne]
  rw [count_nl_append, hlast]
  simp [count_nl]

/-- In a clean buffer the content of every row (its text without the
terminator) contains no line feed. -/
theorem clean_count_content (s : Txt) (h : no_lone_cr s = true) (r : Nat)
    (hr : r < lines_len s) : count_nl (slice_row s r) = 0 := by
  by_cases hlast : r + 1 < lines_len s
  · have hv1 := clean_count_take s h (r + 1) hlast
    have hv0 := clean_count_take s h r hr
    have hsucc := count_take_succ s r hr
    have hone : count_nl ((lines_crlf s).getD r []) = 1 := by omega
    have hnl := clean_row_ends_nl s h r hlast
    rw [slice_row_of_lt s r hr, if_pos hnl]
    have := count_nl_dropLast_nl _ hnl
    omega
  · have hreq : r = lines_len s - 1 := by omega
    have hpos := lines_len_pos s
    have hdrop : (lines_crlf s).drop (r + 1) = [] := by
      apply List.drop_eq_nil_of_le
      show lines_len s ≤ _
      omega
    have hdecomp := buffer_decomp s r hr
    rw [hdrop, List.flatten_nil, List.append_nil] at hdecomp
    have hcnt : count_nl s = count_nl (((lines_crlf s).take r).flatten)
        + count_nl ((lines_crlf s).getD r []) := by
      conv_lhs => rw [hdecomp]
      rw [count_nl_append]
    have hv0 := clean_count_take s h r hr
    have hb : count_nl s = lines_len s - 1 := by
      rw [lines_len_eq_breaks s, clean_breaks_eq_nl s h]
      omega
    have hzero : count_nl ((lines_crlf s).getD r []) = 0 := by omega
    have hlastL : (lines_crlf s).getLast?
        = some ((lines_crlf s).getD r []) := by
      have hidx : (lines_crlf s).length - 1 = r := by
        show lines_len s - 1 = r
        omega
      rw [List.getLast?_eq_getElem?, hidx, List.getElem?_eq_getElem hr,
        List.getD_eq_getElem _ _ hr]
    have hnl := lines_crlf_last_no_nl s _ hlastL
    rw [slice_row_of_lt s r hr, if_neg hnl]
    exact hzero

/-- The bytes up to the content end of row r are the first r rows followed
by the content of row r. -/
theorem byte_take_line_end (s : Txt) (r : Nat) (hr : r < lines_len s) :
    byte_take (line_end_offset s r) s
      = ((lines_crlf s).take r).flatten ++ slice_row s r := by
  have hpre : (((lines_crlf s).take r).flatten ++ slice_row s r) <+: s :=
    start_prefix_mono s r (slice_row s r) hr (List.prefix_refl _)
  have hbt := byte_take_of_isPrefix _ _ hpre
  rw [byte_len_append] at hbt
  have hend : line_end_offset s r
      = byte_len (((lines_crlf s).take r).flatten)
        + byte_len (slice_row s r) := by
    unfold line_end_offset
    rw [if_neg (by omega), line_start_offset_of_lt s r hr]
    rfl
  rw [hend]
  exact hbt
theorem line_end_eq (s : Txt) (r : Nat) (hr : r < lines_len s) :
    line_end_offset s r
      = byte_len (((lines_crlf s).take r).flatten) + byte_len (slice_row s r) := by
  unfold line_end_offset
  rw [if_neg (by omega), line_start_offset_of_lt s r hr]
  rfl

theorem flatten_take_mono (ls : List Txt) (m n : Nat) (h : m ≤ n) :
    (ls.take m).flatten <+: (ls.take n).flatten := by
  have : ls.take n = ls.take m ++ (ls.drop m).take (n - m) := by
    rw [← List.take_add]
    congr 1
    omega
  rw [this, List.flatten_append]
  exact ⟨_, rfl⟩

theorem clean_lines_len (s : Txt) (h : no_lone_cr s = true) :
    lines_len s = count_nl s + 1 := by
  rw [lines_len_eq_breaks s, clean_breaks_eq_nl s h]

/-- In a clean buffer, the slice recomputed by the update, spanning rows
nsr through ner, contains exactly ner minus nsr line feeds. -/
theorem clean_slice_count (s : Txt) (h : no_lone_cr s = true) (nsr ner : Nat)
    (h1 : nsr ≤ ner) (h2 : ner < lines_len s) :
    count_nl (byte_slice (line_start_offset s nsr) (line_end_offset s ner) s)
      = ner - nsr := by
  have hnsr : nsr < lines_len s := by omega
  set P := ((lines_crlf s).take nsr).flatten with hPdef
  obtain ⟨Q, hQ⟩ := flatten_take_isPrefix s nsr
  have hst : line_start_offset s nsr = byte_len P := by
    rw [line_start_offset_of_lt s nsr hnsr]
    rfl
  unfold byte_slice
  rw [hst]
  have hdropQ : byte_drop (byte_len P) s = Q := by
    conv_lhs => rw [← hQ]
    exact byte_drop_prefix_full P Q
  rw [hdropQ]
  have hWA := byte_take_line_end s ner h2
  have hend := line_end_eq s ner h2
  have hPle : byte_len P ≤ byte_len (((lines_crlf s).take ner).flatten) :=
    byte_len_prefix_le _ _ (flatten_take_mono _ nsr ner h1)
  have hle : byte_len P ≤ line_end_offset s ner := by omega
  set e := line_end_offset s ner with hedef
  have hsplit : byte_take e s = P ++ byte_take (e - byte_len P) Q := by
    conv_lhs => rw [← hQ]
    exact byte_take_append_right _ _ _ hle
  rw [hsplit] at hWA
  have hcnt := congrArg count_nl hWA
  rw [count_nl_append, count_nl_append] at hcnt
  rw [clean_count_take s h ner h2, clean_count_content s h ner h2] at hcnt
  have hPcnt : count_nl P = nsr := clean_count_take s h nsr hnsr
  omega

theorem clean_point_row (T A R : Txt) (hT : T = A ++ R)
    (h : no_lone_cr T = true) :
    (offset_to_point T (byte_len A)).row = count_nl A := by
  unfold offset_to_point
  simp only []
  have hb : is_char_boundary T (byte_len A) = true := by
    rw [hT]
    exact boundary_of_prefix A R
  rw [clip_offset_of_boundary _ _ _ hb]
  rw [clean_row T _ h]
  rw [byte_take_of_isPrefix A T ⟨R, hT.symm⟩]
theorem update_lines_def (f : WrapFn) (s : TextWrapper) (changed : Txt)
    (range : RangeN) (new_text : Txt) :
    (update f s changed range new_text).lines =
      (if s.lines.length = 0 then
        new_line_items f s.wrap_width (byte_slice
          (line_start_offset changed (offset_to_point changed range.start).row)
          (line_end_offset changed
            (offset_to_point changed (range.start + byte_len new_text)).row)
          changed)
      else splice_lines s.lines
        (min (offset_to_point s.text range.start).row (s.lines.length - 1))
        (min (offset_to_point s.text range.stop).row (s.lines.length - 1))
        (new_line_items f s.wrap_width (byte_slice
          (line_start_offset changed (offset_to_point changed range.start).row)
          (line_end_offset changed
            (offset_to_point changed (range.start + byte_len new_text)).row)
          changed))) := rfl

theorem new_line_items_length (f : WrapFn) (w : Option Nat) (sl : Txt) :
    (new_line_items f w sl).length = count_nl sl + 1 := by
  unfold new_line_items
  rw [List.length_map]
  have h := lf_line_count_eq sl
  unfold lf_line_count at h
  exact h

/-- Over clean buffers, a valid update preserves the row bookkeeping: the
number of line items after the update is the line-feed count of the new
text plus one. -/
theorem update_length_clean (st : TextWrapper) (f : WrapFn) (A M B N : Txt)
    (hT : st.text = A ++ M ++ B)
    (hct : no_lone_cr st.text = true)
    (hcc : no_lone_cr (A ++ N ++ B) = true)
    (hlines : (st.lines = [] ∧ st.text = [])
      ∨ st.lines.length = count_nl st.text + 1) :
    (update f st (A ++ N ++ B) ⟨byte_len A, byte_len A + byte_len M⟩ N).lines.length
      = count_nl (A ++ N ++ B) + 1 := by
  have hcnt2 : count_nl (A ++ N ++ B) = count_nl A + count_nl N + count_nl B := by
    rw [count_nl_append, count_nl_append]
  have hcntT : count_nl st.text = count_nl A + count_nl M + count_nl B := by
    rw [hT, count_nl_append, count_nl_append]
  have hnsr_row : (offset_to_point (A ++ N ++ B) (byte_len A)).row = count_nl A :=
    clean_point_row _ A (N ++ B) (by rw [List.append_assoc]) hcc
  have hner_row : (offset_to_point (A ++ N ++ B) (byte_len A + byte_len N)).row
      = count_nl A + count_nl N := by
    have h := clean_point_row (A ++ N ++ B) (A ++ N) B (by rw [List.append_assoc]) hcc
    rw [byte_len_append, count_nl_append] at h
    exact h
  have hner_lt : count_nl A + count_nl N < lines_len (A ++ N ++ B) := by
    rw [clean_lines_len _ hcc]
    omega
  have hslice := clean_slice_count (A ++ N ++ B) hcc (count_nl A)
    (count_nl A + count_nl N) (by omega) hner_lt
  rw [update_lines_def]
  simp only [hnsr_row, hner_row]
  rcases hlines with ⟨hl0, ht0⟩ | hlen
  · have hABM : A = [] ∧ M = [] ∧ B = [] := by
      rw [ht0] at hT
      have h1 := hT.symm
      rw [List.append_eq_nil] at h1
      obtain ⟨h2, h3⟩ := h1
      rw [List.append_eq_nil] at h2
      exact ⟨h2.1, h2.2, h3⟩
    obtain ⟨hA, hM, hB⟩ := hABM
    rw [if_pos (by rw [hl0]; rfl)]
    rw [new_line_items_length]
    rw [hslice]
    subst hA
    subst hB
    simp [count_nl] at hcnt2 ⊢
  · have hlen0 : ¬ st.lines.length = 0 := by omega
    rw [if_neg hlen0]
    have hsr_row : (offset_to_point st.text (byte_len A)).row = count_nl A := by
      have h := clean_point_row st.text A (M ++ B)
        (by rw [hT, List.append_assoc]) hct
      exact h
    have her_row : (offset_to_point st.text (byte_len A + byte_len M)).row
        = count_nl A + count_nl M := by
      have h := clean_point_row st.text (A ++ M) B (by rw [hT, List.append_assoc]) hct
      rw [byte_len_append, count_nl_append] at h
      exact h
    have hsr_eq : min (offset_to_point st.text (byte_len A)).row
        (st.lines.length - 1) = count_nl A := by
      rw [hsr_row]
      omega
    have her_eq : min (offset_to_point st.text (byte_len A + byte_len M)).row
        (st.lines.length - 1) = count_nl A + count_nl M := by
      rw [her_row]
      omega
    show (splice_lines st.lines _ _ _).length = _
    unfold splice_lines
    rw [List.length_append, List.length_append, List.length_take,
      List.length_drop, new_line_items_length, hslice]
    rw [hsr_eq, her_eq]
    omega
/-- The initial full update of a fresh wrapper (as update_all performs it,
with the pre-edit range drawn from the new text) also restores the row
bookkeeping. -/
theorem update_length_clean_init (st : TextWrapper) (f : WrapFn) (N : Txt)
    (stop : Nat) (hl0 : st.lines = []) (hcc : no_lone_cr N = true) :
    (update f st N ⟨0, stop⟩ N).lines.length = count_nl N + 1 := by
  rw [update_lines_def]
  rw [if_pos (by rw [hl0]; rfl)]
  have hnsr : (offset_to_point N (0 : Nat)).row = 0 := by
    unfold offset_to_point
    simp only []
    rw [clip_offset_of_boundary _ _ _ (boundary_zero N)]
    rw [clean_row N _ hcc, byte_take_zero]
    rfl
  have hner : (offset_to_point N ((RangeN.mk 0 stop).start + byte_len N)).row
      = count_nl N := by
    show (offset_to_point N (0 + byte_len N)).row = count_nl N
    rw [Nat.zero_add]
    unfold offset_to_point
    simp only []
    rw [clip_offset_of_boundary _ _ _ (boundary_byte_len N)]
    rw [clean_row N _ hcc, byte_take_self]
  have hlt : count_nl N < lines_len N := by
    rw [clean_lines_len N hcc]
    omega
  rw [hner]
  show (new_line_items f st.wrap_width (byte_slice
    (line_start_offset N (offset_to_point N (RangeN.mk 0 stop).start).row)
    (line_end_offset N (count_nl N)) N)).length = count_nl N + 1
  rw [show (RangeN.mk 0 stop).start = (0 : Nat) from rfl, hnsr]
  rw [new_line_items_length]
  have := clean_slice_count N hcc 0 (count_nl N) (Nat.zero_le _) hlt
  omega

/-- The cleanliness and row-count invariant of clean reachable states. -/
theorem clean_inv (s : TextWrapper) (h : ReachClean s) :
    no_lone_cr s.text = true
  ∧ ((s.lines = [] ∧ s.text = []) ∨ s.lines.length = count_nl s.text + 1) := by
  induction h with
  | init w => exact ⟨rfl, Or.inl ⟨rfl, rfl⟩⟩
  | step s f changed range new_text hr hf hv hc ih =>
    obtain ⟨A, M, B, hT, hchanged, hstart, hstop⟩ := hv
    refine ⟨?_, Or.inr ?_⟩
    · show no_lone_cr changed = true
      exact hc
    · show (update f s changed range new_text).lines.length
        = count_nl changed + 1
      rcases hstop with hstop | hl0
      · have hrange : range = ⟨byte_len A, byte_len A + byte_len M⟩ := by
          cases range
          simp only [] at hstart hstop
          rw [hstart, hstop]
        subst hchanged
        subst hrange
        exact update_length_clean s f A M B new_text hT ih.1 hc ih.2
      · have htext : s.text = [] := by
          rcases ih.2 with ⟨_, ht⟩ | hlen
          · exact ht
          · rw [hl0] at hlen
            simp at hlen
        have hABM : A = [] ∧ M = [] ∧ B = [] := by
          rw [htext] at hT
          have h1 := hT.symm
          rw [List.append_eq_nil] at h1
          obtain ⟨h2, h3⟩ := h1
          rw [List.append_eq_nil] at h2
          exact ⟨h2.1, h2.2, h3⟩
        obtain ⟨hA, hM, hB⟩ := hABM
        subst hA
        subst hM
        subst hB
        simp only [List.nil_append, List.append_nil] at hchanged hstart
        have hrange : range = ⟨0, range.stop⟩ := by
          cases range
          simp only [] at hstart
          rw [hstart, byte_len_nil]
        subst hchanged
        rw [hrange]
        exact update_length_clean_init s f changed range.stop hl0 hc

theorem sane_empty_boundaries (f : WrapFn) (hf : sane_wrap f) (w : Nat) :
    f [] w = [] := by
  cases hb : f [] w with
  | nil => rfl
  | cons b bs =>
    exfalso
    have h := (hf [] w).2 b (by rw [hb]; simp)
    rw [byte_len_nil] at h
    omega

theorem make_wrapped_empty (f : WrapFn) (w : Option Nat) (hf : sane_wrap f) :
    make_wrapped_lines f w [] = [⟨0, 0⟩] := by
  unfold make_wrapped_lines
  cases w with
  | none => rfl
  | some width =>
    simp only [sane_empty_boundaries f hf width]
    rfl
/-- Emptying the buffer: replacing the whole text by nothing leaves exactly
one line item, the empty line with the single zero-width wrapped segment,
provided the pre-state satisfies the clean row bookkeeping. -/
theorem update_emptied (s : TextWrapper) (f : WrapFn) (hf : sane_wrap f)
    (hclean : no_lone_cr s.text = true)
    (hinv : (s.lines = [] ∧ s.text = [])
      ∨ s.lines.length = count_nl s.text + 1) :
    (update f s [] ⟨0, byte_len s.text⟩ []).lines = [⟨[], [⟨0, 0⟩]⟩] := by
  have hnew : new_line_items f s.wrap_width (byte_slice
      (line_start_offset ([] : Txt)
        (offset_to_point ([] : Txt) (RangeN.mk 0 (byte_len s.text)).start).row)
      (line_end_offset ([] : Txt)
        (offset_to_point ([] : Txt)
          ((RangeN.mk 0 (byte_len s.text)).start + byte_len ([] : Txt))).row)
      ([] : Txt)) = [⟨[], [⟨0, 0⟩]⟩] := by
    show ([⟨[], make_wrapped_lines f s.wrap_width []⟩] : List LineItem)
      = [⟨[], [⟨0, 0⟩]⟩]
    rw [make_wrapped_empty f s.wrap_width hf]
  rw [update_lines_def]
  by_cases hL : s.lines.length = 0
  · rw [if_pos hL]
    exact hnew
  · rw [if_neg hL]
    rcases hinv with ⟨hl, _⟩ | hlen
    · exact absurd (by rw [hl]; rfl) hL
    · have hsr : (offset_to_point s.text
          ((RangeN.mk 0 (byte_len s.text)).start)).row = 0 := by
        show (offset_to_point s.text 0).row = 0
        unfold offset_to_point
        simp only []
        rw [clip_offset_of_boundary _ _ _ (boundary_zero s.text)]
        rw [clean_row s.text _ hclean, byte_take_zero]
        rfl
      have her : (offset_to_point s.text
          ((RangeN.mk 0 (byte_len s.text)).stop)).row = count_nl s.text := by
        show (offset_to_point s.text (byte_len s.text)).row = count_nl s.text
        unfold offset_to_point
        simp only []
        rw [clip_offset_of_boundary _ _ _ (boundary_byte_len s.text)]
        rw [clean_row s.text _ hclean, byte_take_self]
      rw [hsr, her, hnew]
      unfold splice_lines
      rw [Nat.min_def]
      rw [if_pos (Nat.zero_le _)]
      have h1 : min (count_nl s.text) (s.lines.length - 1)
          = s.lines.length - 1 := by omega
      rw [h1, List.take_zero, List.nil_append]
      rw [show s.lines.length - 1 + 1 = s.lines.length from by omega]
      rw [List.drop_length, List.append_nil]

/-- Every line item of a state reachable by sane updates has wrapped_lines
forming a partition of its line. -/
theorem reach_partition (s : TextWrapper) (h : ReachSane s) :
    ∀ it ∈ s.lines, partition_ok it.wrapped_lines it.len := by
  induction h with
  | init w =>
    intro it hit
    simp [TextWrapper.new] at hit
  | step s f changed range new_text hr hf ih =>
    intro it hit
    rcases update_lines_mem f s changed range new_text it hit with hold | ⟨l, hl⟩
    · exact ih it hold
    · rw [hl]
      exact make_wrapped_partition f s.wrap_width l hf
theorem demo_wrap_sane : sane_wrap demo_wrap := by
  intro l w
  refine ⟨List.Pairwise.nil, ?_⟩
  intro b hb
  exact absurd hb (List.not_mem_nil b)

/-- C2: invariants of the wrapped-lines vector maintained by update:
every line item of a state reached through sane shaping functions has
wrapped_lines partitioning its line (non-empty, contiguous from 0 to the
line byte length); the lines vector is non-empty after any update call;
and emptying the buffer of a state whose history used valid edit ranges
and buffers free of lone carriage returns leaves exactly one line item,
the empty line with the single zero-width segment. -/
theorem claim_C2 :
    (∀ s : TextWrapper, ReachSane s →
        ∀ it ∈ s.lines, partition_ok it.wrapped_lines it.len)
  ∧ (∀ (f : WrapFn) (s : TextWrapper) (changed : Txt) (range : RangeN)
        (new_text : Txt), (update f s changed range new_text).lines ≠ [])
  ∧ (∀ (s : TextWrapper) (f : WrapFn), ReachClean s → sane_wrap f →
        (update f s [] ⟨0, byte_len s.text⟩ []).lines = [⟨[], [⟨0, 0⟩]⟩]) := by
  refine ⟨reach_partition, update_lines_ne_nil, ?_⟩
  intro s f hr hf
  exact update_emptied s f hf (clean_inv s hr).1 (clean_inv s hr).2

theorem claim_C2_witness :
    partition_ok ([⟨0, 1⟩] : List RangeN) 1
  ∧ (update demo_wrap (TextWrapper.new none) ['a'] ⟨0, 0⟩ ['a']).lines ≠ []
  ∧ (update demo_wrap
      (update demo_wrap (TextWrapper.new none) ['a', 'b'] ⟨0, 2⟩ ['a', 'b'])
      [] ⟨0, 2⟩ []).lines = [⟨[], [⟨0, 0⟩]⟩] := by
  refine ⟨?_, ?_, ?_⟩
  · exact claim_C2.1 (update demo_wrap (TextWrapper.new none) ['a'] ⟨0, 0⟩ ['a'])
      (ReachSane.step _ demo_wrap _ _ _ (ReachSane.init none) demo_wrap_sane)
      ⟨['a'], [⟨0, 1⟩]⟩ (by decide)
  · exact claim_C2.2.1 demo_wrap (TextWrapper.new none) ['a'] ⟨0, 0⟩ ['a']
  · exact claim_C2.2.2
      (update demo_wrap (TextWrapper.new none) ['a', 'b'] ⟨0, 2⟩ ['a', 'b'])
      demo_wrap
      (ReachClean.step _ demo_wrap _ _ _ (ReachClean.init none) demo_wrap_sane
        ⟨[], [], [], rfl, rfl, rfl, Or.inr rfl⟩ (by decide))
      demo_wrap_sane

theorem claim_C2_counterexample :
    replace ("\ra\n".toList) ⟨1, 3⟩ ("\n".toList) = "\r\n".toList
  ∧ (update demo_wrap
      (update demo_wrap
        (update_all demo_wrap (TextWrapper.new none) ("\ra\n".toList))
        ("\r\n".toList) ⟨1, 3⟩ ("\n".toList))
      [] ⟨0, 2⟩ []).text = []
  ∧ (update demo_wrap
      (update demo_wrap
        (update_all demo_wrap (TextWrapper.new none) ("\ra\n".toList))
        ("\r\n".toList) ⟨1, 3⟩ ("\n".toList))
      [] ⟨0, 2⟩ []).lines
      = [⟨[], [⟨0, 0⟩]⟩, ⟨[], [⟨0, 0⟩]⟩] := by decide

end GpuiText
